import Mathlib

/-!
Shallow embedding of the maze generator and solver of
`src/lab3/lab3_version3.py` (class `Maze`), together with proofs of the
specification's claims about it.

Cell values follow the source: `-1` wall, `0` passage, `2` visited, `3` on
the reconstructed path.  Positions are `(row, col)` pairs of integers.  The
grid of the Python object is a list of `height` rows of `width` cells; we
model it as a total function on positions, with every read and write of the
source going through `pyGet` / `pySet`, which reproduce Python list
indexing (including negative-index wrap-around) and return `none` exactly
when Python would raise `IndexError`.  The two unbounded `while` loops are
modelled with explicit fuel; running out of fuel also yields `none`.
-/

namespace MazeLab

/-- A position `(row, col)` in the grid, as Python integer pair. -/
abbrev Pos : Type := Int × Int

/-- The cell contents of the grid, as a total function on positions. -/
abbrev Grid : Type := Pos → Int

/-- Python list-index resolution for a list of length `n`: an index `i` with
`0 ≤ i < n` is used as is, `-n ≤ i < 0` wraps to `i + n`, anything else
raises `IndexError` (modelled as `none`). -/
def pyIdx (n i : Int) : Option Int :=
  if 0 ≤ i ∧ i < n then some i
  else if -n ≤ i ∧ i < 0 then some (i + n)
  else none

/-- A read `self.maze[r][c]` on a grid of `height` rows and `width` columns. -/
def pyGet (height width : Int) (g : Grid) (p : Pos) : Option Int :=
  match pyIdx height p.1, pyIdx width p.2 with
  | some r, some c => some (g (r, c))
  | _, _ => none

/-- A write `self.maze[r][c] = v` on a grid of `height` rows and `width` columns. -/
def pySet (height width : Int) (g : Grid) (p : Pos) (v : Int) : Option Grid :=
  match pyIdx height p.1, pyIdx width p.2 with
  | some r, some c => some (fun q => if q = (r, c) then v else g q)
  | _, _ => none

/-- The state of a `Maze` object (fields of the Python class). -/
structure Maze where
  width : Int
  height : Int
  grid : Grid
  start_pos : Pos
  end_pos : Pos

/-- `Maze.__init__`: all cells are walls, `start_pos = (0, 0)`,
`end_pos = (height - 1, width - 1)`.  The source performs no validation of
the dimensions whatsoever. -/
def Maze.init (width height : Int) : Maze :=
  { width := width
    height := height
    grid := fun _ => -1
    start_pos := (0, 0)
    end_pos := (height - 1, width - 1) }

/-- The carving direction offsets `[(0, 2), (2, 0), (0, -2), (-2, 0)]`. -/
def carveDirs : List (Int × Int) := [(0, 2), (2, 0), (0, -2), (-2, 0)]

/-- The solving direction offsets `[(0, 1), (1, 0), (0, -1), (-1, 0)]`. -/
def solveDirs : List (Int × Int) := [(0, 1), (1, 0), (0, -1), (-1, 0)]

/-- The neighbour scan of one carving iteration: for each direction `d` of
the (shuffled) list, keep `(nx, ny) = current + d` when it lies strictly
inside the border and is still a wall, paired with the wall offset
`(dx // 2, dy // 2)` (exact halves, so Lean `Int` division agrees with
Python floor division).  The interior guard `0 < nx < height - 1` is checked
before the grid read, so the read is always in bounds and is modelled as a
plain function application. -/
def carveNeighbors (m : Maze) (g : Grid) (c : Pos) (dirs : List (Int × Int)) :
    List (Pos × Pos) :=
  dirs.filterMap (fun d =>
    let nx := c.1 + d.1
    let ny := c.2 + d.2
    if 0 < nx ∧ nx < m.height - 1 ∧ 0 < ny ∧ ny < m.width - 1 ∧ g (nx, ny) = -1
    then some ((nx, ny), (d.1 / 2, d.2 / 2))
    else none)

/-- The state of the carving loop.  The Python stack grows and pops at the
end and inspects `stack[-1]`; we keep the top of the stack at the head of
the list.  `k` counts loop iterations (one `random.shuffle` call each).
`pushed` is ghost instrumentation recording every cell pushed by the loop
body; it never influences control flow. -/
structure CState where
  grid : Grid
  stack : List Pos
  k : Nat
  pushed : List Pos

/-- The carving `while stack:` loop of `generate_maze`, with the per-step
shuffled direction list supplied by the oracle `sh`.  `none` means the fuel
ran out or a grid write was out of range. -/
def carveLoop (m : Maze) (sh : Nat → List (Int × Int)) :
    Nat → CState → Option CState
  | 0, _ => none
  | fuel + 1, s =>
    match s.stack with
    | [] => some s
    | c :: rest =>
      match carveNeighbors m s.grid c (sh s.k) with
      | [] => carveLoop m sh fuel { s with stack := rest, k := s.k + 1 }
      | (nxt, wd) :: _ =>
        match pySet m.height m.width s.grid (c.1 + wd.1, c.2 + wd.2) 0 with
        | none => none
        | some g1 =>
          match pySet m.height m.width g1 nxt 0 with
          | none => none
          | some g2 =>
            carveLoop m sh fuel
              { grid := g2, stack := nxt :: c :: rest, k := s.k + 1,
                pushed := s.pushed ++ [nxt] }

/-- Fuel that always suffices for the carving loop (proved below): at most
one push per interior cell, and each iteration pushes or pops. -/
def carveFuel (m : Maze) : Nat :=
  2 * ((m.height - 2).toNat * (m.width - 2).toNat) + 2

/-- The reset-and-carve phase of `generate_maze`: reset every cell to wall
(on the functional grid, the constant wall grid), carve `(1, 1)`, and run
the stack-based carving loop from the stack `[(1, 1)]`. -/
def carveRun (m : Maze) (sh : Nat → List (Int × Int)) : Option CState :=
  match pySet m.height m.width (fun _ => -1) (1, 1) 0 with
  | none => none
  | some g1 => carveLoop m sh (carveFuel m) ⟨g1, [(1, 1)], 0, []⟩

/-- `Maze.generate_maze`: run the carving phase, then open the entrance
`(0, 1)` and the exit `(height - 1, width - 2)` and record them in
`start_pos` / `end_pos`. -/
def Maze.generate_maze (m : Maze) (sh : Nat → List (Int × Int)) : Option Maze :=
  match carveRun m sh with
  | none => none
  | some s =>
    match pySet m.height m.width s.grid (0, 1) 0 with
    | none => none
    | some g2 =>
      match pySet m.height m.width g2 (m.height - 1, m.width - 2) 0 with
      | none => none
      | some g3 =>
        some { m with grid := g3, start_pos := (0, 1),
                      end_pos := (m.height - 1, m.width - 2) }

/-- First-match lookup in the `visited` association list (a Python `dict`
whose insertion order we keep; keys are inserted at most once). -/
def visFind : List (Pos × Option Pos) → Pos → Option (Option Pos)
  | [], _ => none
  | e :: rest, p => if e.1 = p then some e.2 else visFind rest p

/-- The keys of the `visited` map, in insertion order. -/
def visKeys (vis : List (Pos × Option Pos)) : List Pos := vis.map (·.1)

/-- The state of the breadth-first search: the FIFO `queue`, the
`visited` predecessor map in insertion order, and the grid. -/
structure BState where
  queue : List Pos
  vis : List (Pos × Option Pos)
  grid : Grid

/-- One direction of the neighbour exploration of a dequeued cell `c`:
Python evaluates `0 <= nx < height and 0 <= ny < width and
self.maze[nx][ny] == 0 and next_pos not in visited` left to right with
short-circuiting, so the grid is read only after the bounds test; on
success the neighbour is appended to the queue, recorded in `visited`, and
its cell marked `2`. -/
def stepDir (m : Maze) (c : Pos) (s : BState) (d : Int × Int) : Option BState :=
  let nx := c.1 + d.1
  let ny := c.2 + d.2
  let np : Pos := (nx, ny)
  if 0 ≤ nx ∧ nx < m.height ∧ 0 ≤ ny ∧ ny < m.width then
    match pyGet m.height m.width s.grid np with
    | none => none
    | some v =>
      if v = 0 ∧ (visFind s.vis np).isNone then
        match pySet m.height m.width s.grid np 2 with
        | none => none
        | some g2 =>
          some { queue := s.queue ++ [np], vis := s.vis ++ [(np, some c)],
                 grid := g2 }
      else some s
  else some s

/-- The `for dx, dy in directions:` body of the search loop. -/
def expandCell (m : Maze) (c : Pos) (s : BState) : Option BState :=
  solveDirs.foldlM (fun s d => stepDir m c s d) s

/-- The `while queue:` loop of `solve_sequential`: pop the front, break
when it is the exit, otherwise explore the four neighbours. -/
def bfsLoop (m : Maze) : Nat → BState → Option BState
  | 0, _ => none
  | fuel + 1, s =>
    match s.queue with
    | [] => some s
    | c :: rest =>
      if c = m.end_pos then some { s with queue := rest }
      else
        match expandCell m c { s with queue := rest } with
        | none => none
        | some s2 => bfsLoop m fuel s2

/-- Fuel that always suffices for the search loop (proved below): each
iteration pops one cell, and at most one cell per grid position (plus the
start) is ever enqueued. -/
def bfsFuel (m : Maze) : Nat := m.height.toNat * m.width.toNat + 2

/-- The reconstruction loop `while current: path.append(current);
current = visited.get(current)`: tuples are always truthy, so the loop
stops exactly when the lookup yields `None` (a missing key or the start's
recorded `None`). -/
def recon (vis : List (Pos × Option Pos)) : Nat → Pos → Option (List Pos)
  | 0, _ => none
  | fuel + 1, cur =>
    match visFind vis cur with
    | some (some q) => (recon vis fuel q).map (fun l => cur :: l)
    | _ => some [cur]

/-- The marking loop: every reconstructed cell other than the entrance and
the exit is overwritten with `3`. -/
def markPath (m : Maze) : Grid → List Pos → Option Grid
  | g, [] => some g
  | g, p :: rest =>
    if p ≠ m.start_pos ∧ p ≠ m.end_pos then
      match pySet m.height m.width g p 3 with
      | none => none
      | some g2 => markPath m g2 rest
    else markPath m g rest

/-- `Maze.solve_sequential`, returning also the final `visited` map (ghost
output used only by the specification): run the search from `start_pos`,
reconstruct backwards from `end_pos`, mark the path, and return the
reversed path together with the updated maze. -/
def solveAux (m : Maze) : Option (List Pos × Maze × List (Pos × Option Pos)) :=
  match bfsLoop m (bfsFuel m)
      ⟨[m.start_pos], [(m.start_pos, none)], m.grid⟩ with
  | none => none
  | some s1 =>
    match recon s1.vis (s1.vis.length + 1) m.end_pos with
    | none => none
    | some pth =>
      match markPath m s1.grid pth with
      | none => none
      | some g2 => some (pth.reverse, { m with grid := g2 }, s1.vis)

/-- `Maze.solve_sequential` as in the source: the returned path and the
mutated maze. -/
def Maze.solve_sequential (m : Maze) : Option (List Pos × Maze) :=
  (solveAux m).map (fun r => (r.1, r.2.1))

/-- The path returned by `solve_sequential`. -/
def solvePath (m : Maze) : Option (List Pos) :=
  (Maze.solve_sequential m).map (·.1)

/-- The maze after `solve_sequential` has mutated it. -/
def solveMaze (m : Maze) : Option Maze :=
  (Maze.solve_sequential m).map (·.2)

/-- A single cell of the grid after `solve_sequential`. -/
def solveGridAt (m : Maze) (p : Pos) : Option Int :=
  (solveMaze m).map (fun m2 => m2.grid p)

/-- A fixed shuffle oracle: `random.shuffle` happening to leave the
direction list unchanged at every step (one admissible behaviour). -/
def sigma0 : Nat → List (Int × Int) := fun _ => carveDirs

/-- Construct a maze and generate it with the shuffle oracle `sh`. -/
def genMaze (width height : Int) (sh : Nat → List (Int × Int)) : Option Maze :=
  (Maze.init width height).generate_maze sh

/-- Position `p` is inside the grid bounds. -/
def inB (m : Maze) (p : Pos) : Prop :=
  0 ≤ p.1 ∧ p.1 < m.height ∧ 0 ≤ p.2 ∧ p.2 < m.width

/-- Positions `q` and `p` are 4-adjacent (Manhattan distance one):
`p - q` is one of the four unit offsets. -/
def adjStep (q p : Pos) : Prop :=
  (p.1 - q.1, p.2 - q.2) ∈ solveDirs

/-- Position `p` is strictly inside the border. -/
def interiorP (m : Maze) (p : Pos) : Prop :=
  0 < p.1 ∧ p.1 < m.height - 1 ∧ 0 < p.2 ∧ p.2 < m.width - 1

/-- Position `p` is on the border of the grid. -/
def borderP (m : Maze) (p : Pos) : Prop :=
  inB m p ∧ (p.1 = 0 ∨ p.1 = m.height - 1 ∨ p.2 = 0 ∨ p.2 = m.width - 1)

instance (m : Maze) (p : Pos) : Decidable (inB m p) := by
  unfold inB
  infer_instance

instance (m : Maze) (p : Pos) : Decidable (interiorP m p) := by
  unfold interiorP
  infer_instance

instance (m : Maze) (p : Pos) : Decidable (borderP m p) := by
  unfold borderP
  infer_instance

instance (q p : Pos) : Decidable (adjStep q p) := by
  unfold adjStep
  infer_instance

/-- `ReachFromN m g p n q`: there is a walk of `n` 4-adjacent steps from
`p` to `q` in which every position after `p` is an in-bounds passage cell
of `g` (value `0`).  This is the traversability notion of the solver: the
starting cell's own value is irrelevant. -/
inductive ReachFromN (m : Maze) (g : Grid) (p : Pos) : Nat → Pos → Prop
  | refl : ReachFromN m g p 0 p
  | step {n : Nat} {q r : Pos} : ReachFromN m g p n q → adjStep q r →
      inB m r → g r = 0 → ReachFromN m g p (n + 1) r

/-- `q` is reachable from `p` through passage cells. -/
def Reaches (m : Maze) (g : Grid) (p q : Pos) : Prop :=
  ∃ n, ReachFromN m g p n q

/-- How the `visited` map of the search is built over the original grid
`g0`: it starts as `{start_pos: None}`, and each later entry records a
fresh in-bounds passage cell together with an already-present predecessor
adjacent to it. -/
inductive Built (m : Maze) (g0 : Grid) : List (Pos × Option Pos) → Prop
  | start : Built m g0 [(m.start_pos, none)]
  | extend {vis : List (Pos × Option Pos)} {p q : Pos} :
      Built m g0 vis → q ∈ visKeys vis → p ∉ visKeys vis → adjStep q p →
      inB m p → g0 p = 0 → p ≠ m.start_pos →
      Built m g0 (vis ++ [(p, some q)])

/-- The number of cells on the predecessor chain of `p` (both endpoints
included); `vis.length + 1` fuel always suffices for a well-built map. -/
def depthOf (vis : List (Pos × Option Pos)) (p : Pos) : Nat :=
  ((recon vis (vis.length + 1) p).getD [p]).length

/-- Pointwise grid update (what an in-bounds `pySet` produces). -/
def updateG (g : Grid) (p : Pos) (v : Int) : Grid :=
  fun q => if q = p then v else g q

/-- The maximal number of distinct visited keys: every key other than the
start is in bounds. -/
def visBound (m : Maze) : Nat := m.height.toNat * m.width.toNat

/-- The invariant of the search loop over the original grid `g0`.
`depthOf` is the breadth-first discovery depth read off the predecessor
map. -/
structure BfsInv (m : Maze) (g0 : Grid) (s : BState) : Prop where
  built : Built m g0 s.vis
  grid_eq : ∀ p, s.grid p =
    if p ∈ visKeys s.vis ∧ p ≠ m.start_pos then 2 else g0 p
  queue_sub : ∀ p ∈ s.queue, p ∈ visKeys s.vis
  queue_nodup : s.queue.Nodup
  pstep : ∀ p ∈ visKeys s.vis, p ∉ s.queue → ∀ r, adjStep p r → inB m r →
    g0 r = 0 → r ∈ visKeys s.vis ∧ depthOf s.vis r ≤ depthOf s.vis p + 1
  qmono : s.queue.Pairwise (fun a b => depthOf s.vis a ≤ depthOf s.vis b)
  qbound : ∀ a ∈ s.queue, ∀ hd, s.queue.head? = some hd →
    depthOf s.vis a ≤ depthOf s.vis hd + 1
  pdone : ∀ p ∈ visKeys s.vis, p ∉ s.queue → ∀ q ∈ s.queue,
    depthOf s.vis p ≤ depthOf s.vis q
  sound : ∀ p ∈ visKeys s.vis,
    ReachFromN m g0 m.start_pos (depthOf s.vis p - 1) p
  mincov : ∀ n p, ReachFromN m g0 m.start_pos n p →
    (p ∈ visKeys s.vis ∧ depthOf s.vis p - 1 ≤ n) ∨
    ∃ q ∈ s.queue, ∃ k1 k2, k1 + k2 = n ∧ depthOf s.vis q - 1 ≤ k1 ∧
      ReachFromN m g0 q k2 p

/-- The invariant of the carving loop: the stack and the pushed cells are
interior, each pushed cell has been carved, no cell is pushed twice, and
nothing outside the interior has been touched since the initial grid
`ginit`. -/
structure CarveInv (m : Maze) (ginit : Grid) (s : CState) : Prop where
  stack_int : ∀ p ∈ s.stack, interiorP m p
  pushed_int : ∀ p ∈ s.pushed, interiorP m p
  pushed_nodup : s.pushed.Nodup
  pushed_zero : ∀ p ∈ s.pushed, s.grid p = 0
  frame : ∀ p, ¬ interiorP m p → s.grid p = ginit p

/-- The 3×3 maze produced by `generate_maze` under the shuffle oracle
`sigma0` (its grid is the single passage column 1). -/
def mgen3 : Maze := (genMaze 3 3 sigma0).getD (Maze.init 0 0)

/-- The result of `solveAux` on the generated 3×3 maze. -/
def aux3 : List Pos × Maze × List (Pos × Option Pos) :=
  (solveAux mgen3).getD ([], Maze.init 0 0, [])

/-- The result of `solve_sequential` on the generated 3×3 maze. -/
def seq3 : List Pos × Maze :=
  (Maze.solve_sequential mgen3).getD ([], Maze.init 0 0)

/-!
Lemmas.  First the indexing primitives, then the structure of the
`visited` map and the reconstruction walk, then the two loops, and finally
the claims.
-/

theorem pyIdx_of_bounds {n i : Int} (h0 : 0 ≤ i) (h1 : i < n) :
    pyIdx n i = some i := by
  simp [pyIdx, h0, h1]

theorem pyGet_inB {H W : Int} {g : Grid} {p : Pos} (h : 0 ≤ p.1 ∧ p.1 < H ∧ 0 ≤ p.2 ∧ p.2 < W) :
    pyGet H W g p = some (g p) := by
  obtain ⟨h0, h1, h2, h3⟩ := h
  simp [pyGet, pyIdx_of_bounds h0 h1, pyIdx_of_bounds h2 h3]

theorem pySet_inB {H W : Int} {g : Grid} {p : Pos} {v : Int}
    (h : 0 ≤ p.1 ∧ p.1 < H ∧ 0 ≤ p.2 ∧ p.2 < W) :
    pySet H W g p v = some (updateG g p v) := by
  obtain ⟨h0, h1, h2, h3⟩ := h
  simp only [pySet, pyIdx_of_bounds h0 h1, pyIdx_of_bounds h2 h3]
  rfl

theorem updateG_self {g : Grid} {p : Pos} {v : Int} : updateG g p v p = v := by
  simp [updateG]

theorem updateG_ne {g : Grid} {p q : Pos} {v : Int} (h : q ≠ p) :
    updateG g p v q = g q := by
  simp [updateG, h]

theorem visKeys_append {l1 l2 : List (Pos × Option Pos)} :
    visKeys (l1 ++ l2) = visKeys l1 ++ visKeys l2 := by
  simp [visKeys]

theorem visKeys_cons {e : Pos × Option Pos} {rest : List (Pos × Option Pos)} :
    visKeys (e :: rest) = e.1 :: visKeys rest := rfl

theorem mem_visKeys_of_mem {vis : List (Pos × Option Pos)} {e : Pos × Option Pos}
    (h : e ∈ vis) : e.1 ∈ visKeys vis :=
  List.mem_map_of_mem (·.1) h

theorem visFind_eq_none {vis : List (Pos × Option Pos)} {p : Pos} :
    visFind vis p = none ↔ p ∉ visKeys vis := by
  induction vis with
  | nil => simp [visFind, visKeys]
  | cons e rest ih =>
    by_cases h : e.1 = p
    · simp [visFind, h, visKeys]
    · simp [visFind, h, visKeys, ih, Ne.symm h]

theorem visFind_append_of_mem {l1 l2 : List (Pos × Option Pos)} {p : Pos}
    (h : p ∈ visKeys l1) : visFind (l1 ++ l2) p = visFind l1 p := by
  induction l1 with
  | nil => simp [visKeys] at h
  | cons e rest ih =>
    by_cases he : e.1 = p
    · simp [visFind, he]
    · have : p ∈ visKeys rest := by
        rw [visKeys_cons] at h
        rcases List.mem_cons.mp h with h | h
        · exact absurd h.symm he
        · exact h
      simp [visFind, he, ih this]

theorem visFind_append_of_not_mem {l1 l2 : List (Pos × Option Pos)} {p : Pos}
    (h : p ∉ visKeys l1) : visFind (l1 ++ l2) p = visFind l2 p := by
  induction l1 with
  | nil => simp
  | cons e rest ih =>
    have he : e.1 ≠ p := by
      intro hc; exact h (by simp [visKeys, hc])
    have : p ∉ visKeys rest := by
      intro hc; exact h (by simp [visKeys] at hc ⊢; exact Or.inr hc)
    simp [visFind, he, ih this]

theorem visFind_mem {vis : List (Pos × Option Pos)} {p : Pos} {o : Option Pos}
    (h : visFind vis p = some o) : (p, o) ∈ vis := by
  induction vis with
  | nil => simp [visFind] at h
  | cons e rest ih =>
    by_cases he : e.1 = p
    · obtain ⟨a, b⟩ := e
      simp only at he
      subst he
      simp [visFind] at h
      subst h
      exact List.mem_cons_self _ _
    · simp [visFind, he] at h
      exact List.mem_cons_of_mem _ (ih h)

theorem visFind_of_mem {vis : List (Pos × Option Pos)} {p : Pos}
    (h : p ∈ visKeys vis) : ∃ o, visFind vis p = some o := by
  rcases Option.eq_none_or_eq_some (visFind vis p) with h' | h'
  · exact absurd (visFind_eq_none.mp h') (by simp [h])
  · exact h'

theorem visFind_of_nodup_mem {vis : List (Pos × Option Pos)} {p : Pos} {o : Option Pos}
    (hnd : (visKeys vis).Nodup) (h : (p, o) ∈ vis) : visFind vis p = some o := by
  induction vis with
  | nil => simp at h
  | cons e rest ih =>
    rw [visKeys_cons, List.nodup_cons] at hnd
    obtain ⟨h1, h2⟩ := hnd
    rcases List.mem_cons.mp h with h | h
    · subst h; simp [visFind]
    · have hp : p ∈ visKeys rest := mem_visKeys_of_mem h
      have he : e.1 ≠ p := fun hc => h1 (hc ▸ hp)
      simp only [visFind, he, if_false]
      exact ih h2 h

theorem Built.start_mem {m : Maze} {g0 : Grid} {vis : List (Pos × Option Pos)}
    (hb : Built m g0 vis) : m.start_pos ∈ visKeys vis := by
  induction hb with
  | start => simp [visKeys]
  | extend hb hq hnp hadj hin hg hns ih =>
    rw [visKeys_append]
    exact List.mem_append_left _ ih

theorem Built.keys_nodup {m : Maze} {g0 : Grid} {vis : List (Pos × Option Pos)}
    (hb : Built m g0 vis) : (visKeys vis).Nodup := by
  induction hb with
  | start => simp [visKeys]
  | extend hb hq hnp hadj hin hg hns ih =>
    rw [visKeys_append]
    refine List.Nodup.append ih (List.nodup_singleton _) ?_
    intro a ha hb'
    have : a ∈ visKeys [(_, some _)] := hb'
    simp [visKeys] at this
    subst this
    exact hnp ha

theorem Built.entry_some {m : Maze} {g0 : Grid} {vis : List (Pos × Option Pos)}
    (hb : Built m g0 vis) : ∀ {p q : Pos}, (p, some q) ∈ vis →
    q ∈ visKeys vis ∧ adjStep q p ∧ inB m p ∧ g0 p = 0 ∧ p ≠ m.start_pos := by
  induction hb with
  | start =>
    intro p q h
    simp at h
  | extend hb hq hnp hadj hin hg hns ih =>
    intro p q h
    rcases List.mem_append.mp h with h | h
    · obtain ⟨h1, h2, h3, h4, h5⟩ := ih h
      exact ⟨by rw [visKeys_append]; exact List.mem_append_left _ h1, h2, h3, h4, h5⟩
    · simp at h
      obtain ⟨hp, hq'⟩ := h
      subst hp; subst hq'
      exact ⟨by rw [visKeys_append]; exact List.mem_append_left _ hq, hadj, hin, hg, hns⟩

theorem Built.entry_none {m : Maze} {g0 : Grid} {vis : List (Pos × Option Pos)}
    (hb : Built m g0 vis) : ∀ {p : Pos}, (p, none) ∈ vis → p = m.start_pos := by
  induction hb with
  | start =>
    intro p h
    simp at h
    exact h
  | extend hb hq hnp hadj hin hg hns ih =>
    intro p h
    rcases List.mem_append.mp h with h | h
    · exact ih h
    · simp at h

theorem Built.find_start {m : Maze} {g0 : Grid} {vis : List (Pos × Option Pos)}
    (hb : Built m g0 vis) : visFind vis m.start_pos = some none := by
  induction hb with
  | start => simp [visFind]
  | extend hb hq hnp hadj hin hg hns ih =>
    rw [visFind_append_of_mem hb.start_mem]
    exact ih

theorem Built.key_props {m : Maze} {g0 : Grid} {vis : List (Pos × Option Pos)}
    (hb : Built m g0 vis) {p : Pos} (h : p ∈ visKeys vis) :
    p = m.start_pos ∨ (inB m p ∧ g0 p = 0 ∧ p ≠ m.start_pos) := by
  rcases List.mem_map.mp h with ⟨e, he, hep⟩
  obtain ⟨a, o⟩ := e
  simp only at hep
  subst hep
  cases o with
  | none => exact Or.inl (hb.entry_none he)
  | some q =>
    obtain ⟨_, _, h3, h4, h5⟩ := hb.entry_some he
    exact Or.inr ⟨h3, h4, h5⟩

theorem Built.length_le {m : Maze} {g0 : Grid} {vis : List (Pos × Option Pos)}
    (hb : Built m g0 vis) : vis.length ≤ visBound m + 1 := by
  have hnd := hb.keys_nodup
  have hlen : vis.length = (visKeys vis).length := by simp [visKeys]
  have hsub : (visKeys vis).toFinset ⊆
      insert m.start_pos ((Finset.Ico (0 : Int) m.height) ×ˢ (Finset.Ico (0 : Int) m.width)) := by
    intro x hx
    rcases hb.key_props (List.mem_toFinset.mp hx) with h | ⟨⟨i1, i2, i3, i4⟩, _, _⟩
    · simp [h]
    · rw [Finset.mem_insert]
      right
      rw [Finset.mem_product, Finset.mem_Ico, Finset.mem_Ico]
      exact ⟨⟨i1, i2⟩, ⟨i3, i4⟩⟩
  have hcard := Finset.card_le_card hsub
  rw [List.toFinset_card_of_nodup hnd] at hcard
  have h2 : (insert m.start_pos
      ((Finset.Ico (0 : Int) m.height) ×ˢ (Finset.Ico (0 : Int) m.width))).card ≤
      visBound m + 1 := by
    refine le_trans (Finset.card_insert_le _ _) ?_
    rw [Finset.card_product, Int.card_Ico, Int.card_Ico]
    simp [visBound]
  omega

theorem recon_shape {vis : List (Pos × Option Pos)} {f : Nat} {p : Pos} {l : List Pos}
    (h : recon vis f p = some l) : ∃ t, l = p :: t := by
  cases f with
  | zero => simp [recon] at h
  | succ f =>
    rcases hv : visFind vis p with _ | o
    · simp [recon, hv] at h
      exact ⟨[], h.symm⟩
    · cases o with
      | none =>
        simp [recon, hv] at h
        exact ⟨[], h.symm⟩
      | some q =>
        simp [recon, hv] at h
        obtain ⟨l0, _, hl⟩ := h
        exact ⟨l0, hl.symm⟩

theorem recon_mono {vis : List (Pos × Option Pos)} {f : Nat} {p : Pos} {l : List Pos}
    (h : recon vis f p = some l) : ∀ f', f ≤ f' → recon vis f' p = some l := by
  induction f generalizing p l with
  | zero => simp [recon] at h
  | succ f ih =>
    intro f' hf
    obtain ⟨f'', rfl⟩ : ∃ f'', f' = f'' + 1 := ⟨f' - 1, by omega⟩
    rcases hv : visFind vis p with _ | o
    · simp [recon, hv] at h ⊢
      exact h
    · cases o with
      | none =>
        simp [recon, hv] at h ⊢
        exact h
      | some q =>
        simp [recon, hv] at h ⊢
        obtain ⟨l0, hl0, hl⟩ := h
        exact ⟨l0, ih hl0 f'' (by omega), hl⟩

theorem recon_append {m : Maze} {g0 : Grid} {vis ext : List (Pos × Option Pos)}
    (hb : Built m g0 vis) {p : Pos} (hp : p ∈ visKeys vis) :
    ∀ f, recon (vis ++ ext) f p = recon vis f p := by
  intro f
  induction f generalizing p with
  | zero => rfl
  | succ f ih =>
    have hf : visFind (vis ++ ext) p = visFind vis p := visFind_append_of_mem hp
    rcases h : visFind vis p with _ | o
    · simp [recon, hf, h]
    · cases o with
      | none => simp [recon, hf, h]
      | some q =>
        have hq : q ∈ visKeys vis := (hb.entry_some (visFind_mem h)).1
        simp [recon, hf, h, ih hq]

theorem recon_built {m : Maze} {g0 : Grid} {vis : List (Pos × Option Pos)}
    (hb : Built m g0 vis) : ∀ {p : Pos}, p ∈ visKeys vis →
    ∃ l : List Pos, (∀ f, l.length ≤ f → recon vis f p = some l) ∧
      l.head? = some p ∧ l.getLast? = some m.start_pos ∧ 1 ≤ l.length ∧
      l.length ≤ vis.length ∧ (∀ x ∈ l, x ∈ visKeys vis) ∧
      List.Chain' (fun a b => adjStep b a) l ∧
      (∀ x ∈ l, x ≠ m.start_pos → inB m x ∧ g0 x = 0) := by
  induction hb with
  | start =>
    intro p hp
    simp [visKeys] at hp
    subst hp
    refine ⟨[m.start_pos], ?_, by simp, by simp, by simp, by simp, by simp [visKeys],
      List.chain'_singleton _, by simp⟩
    intro f hf
    obtain ⟨f', rfl⟩ : ∃ f', f = f' + 1 := ⟨f - 1, by simp at hf; omega⟩
    simp [recon, visFind]
  | @extend vis pn qn hb hq hnp hadj hin hg hns ih =>
    intro p hp
    rw [visKeys_append] at hp
    rcases List.mem_append.mp hp with hp | hp
    · obtain ⟨l, hl, h1, h2, h3, h4, h5, h6, h7⟩ := ih hp
      refine ⟨l, ?_, h1, h2, h3, by simp; omega, ?_, h6, h7⟩
      · intro f hf
        rw [recon_append hb hp]
        exact hl f hf
      · intro x hx
        rw [visKeys_append]
        exact List.mem_append_left _ (h5 x hx)
    · simp [visKeys] at hp
      subst hp
      obtain ⟨l, hl, h1, h2, h3, h4, h5, h6, h7⟩ := ih hq
      refine ⟨p :: l, ?_, by simp, ?_, by simp, by simp; omega, ?_, ?_, ?_⟩
      · intro f hf
        obtain ⟨f', rfl⟩ : ∃ f', f = f' + 1 := ⟨f - 1, by simp at hf; omega⟩
        have hfind : visFind (vis ++ [(p, some qn)]) p = some (some qn) := by
          rw [visFind_append_of_not_mem hnp]
          simp [visFind]
        have : recon (vis ++ [(p, some qn)]) f' qn = some l := by
          rw [recon_append hb hq]
          exact hl f' (by simp at hf; omega)
        simp [recon, hfind, this]
      · obtain ⟨b, t, rfl⟩ : ∃ b t, l = b :: t := by
          cases l with
          | nil => simp at h1
          | cons b t => exact ⟨b, t, rfl⟩
        simpa using h2
      · intro x hx
        rcases List.mem_cons.mp hx with hx | hx
        · subst hx
          rw [visKeys_append]
          exact List.mem_append_right _ (by simp [visKeys])
        · rw [visKeys_append]
          exact List.mem_append_left _ (h5 x hx)
      · rw [List.chain'_cons']
        constructor
        · intro b hbmem
          rw [h1] at hbmem
          simp at hbmem
          subst hbmem
          exact hadj
        · exact h6
      · intro x hx hxs
        rcases List.mem_cons.mp hx with hx | hx
        · subst hx
          exact ⟨hin, hg⟩
        · exact h7 x hx hxs

theorem depthOf_ge_one (vis : List (Pos × Option Pos)) (p : Pos) :
    1 ≤ depthOf vis p := by
  rcases h : recon vis (vis.length + 1) p with _ | l
  · simp [depthOf, h]
  · obtain ⟨t, rfl⟩ := recon_shape h
    simp [depthOf, h]

theorem depthOf_eq_of_built {vis : List (Pos × Option Pos)} {p : Pos} {l : List Pos}
    (hl : ∀ f, l.length ≤ f → recon vis f p = some l) (hlen : l.length ≤ vis.length) :
    depthOf vis p = l.length := by
  have : recon vis (vis.length + 1) p = some l := hl _ (by omega)
  simp [depthOf, this]

theorem depthOf_append {m : Maze} {g0 : Grid} {vis ext : List (Pos × Option Pos)}
    (hb : Built m g0 vis) {p : Pos} (hp : p ∈ visKeys vis) :
    depthOf (vis ++ ext) p = depthOf vis p := by
  obtain ⟨l, hl, _, _, _, hlen, _, _, _⟩ := recon_built hb hp
  have h1 : recon vis (vis.length + 1) p = some l := hl _ (by omega)
  have h2 : recon (vis ++ ext) ((vis ++ ext).length + 1) p = some l := by
    rw [recon_append hb hp]
    exact hl _ (by simp; omega)
  simp only [depthOf]
  rw [h1, h2]

theorem depthOf_snoc_new {m : Maze} {g0 : Grid} {vis : List (Pos × Option Pos)}
    (hb : Built m g0 vis) {p q : Pos} (hq : q ∈ visKeys vis) (hnp : p ∉ visKeys vis) :
    depthOf (vis ++ [(p, some q)]) p = depthOf vis q + 1 := by
  obtain ⟨l, hl, _, _, _, hlen, _, _, _⟩ := recon_built hb hq
  have hfind : visFind (vis ++ [(p, some q)]) p = some (some q) := by
    rw [visFind_append_of_not_mem hnp]
    simp [visFind]
  have hq' : recon (vis ++ [(p, some q)]) l.length q = some l := by
    rw [recon_append hb hq]
    exact hl _ le_rfl
  have hstep : recon (vis ++ [(p, some q)]) (l.length + 1) p = some (p :: l) := by
    simp [recon, hfind, hq']
  have h2 : recon (vis ++ [(p, some q)]) ((vis ++ [(p, some q)]).length + 1) p =
      some (p :: l) :=
    recon_mono hstep _ (by simp; omega)
  simp only [depthOf]
  rw [h2, hl _ (by omega)]
  simp

theorem depthOf_start {m : Maze} {g0 : Grid} {vis : List (Pos × Option Pos)}
    (hb : Built m g0 vis) : depthOf vis m.start_pos = 1 := by
  have : recon vis (vis.length + 1) m.start_pos = some [m.start_pos] := by
    simp [recon, hb.find_start]
  simp [depthOf, this]

theorem stepDir_spec {m : Maze} {g0 : Grid} {c : Pos} {s : BState} {d : Int × Int}
    (hd : d ∈ solveDirs) (hb : Built m g0 s.vis)
    (hgr : ∀ p, s.grid p = if p ∈ visKeys s.vis ∧ p ≠ m.start_pos then 2 else g0 p)
    (hc : c ∈ visKeys s.vis) :
    ∃ s', stepDir m c s d = some s' ∧ Built m g0 s'.vis ∧
      (∀ p, s'.grid p = if p ∈ visKeys s'.vis ∧ p ≠ m.start_pos then 2 else g0 p) ∧
      ((s'.vis = s.vis ∧ s'.queue = s.queue) ∨
        (∃ np : Pos, np = (c.1 + d.1, c.2 + d.2) ∧ np ∉ visKeys s.vis ∧
          s'.vis = s.vis ++ [(np, some c)] ∧ s'.queue = s.queue ++ [np])) ∧
      (inB m (c.1 + d.1, c.2 + d.2) → g0 (c.1 + d.1, c.2 + d.2) = 0 →
        (c.1 + d.1, c.2 + d.2) ∈ visKeys s'.vis) := by
  set np : Pos := (c.1 + d.1, c.2 + d.2) with hnp
  by_cases hbnd : 0 ≤ c.1 + d.1 ∧ c.1 + d.1 < m.height ∧ 0 ≤ c.2 + d.2 ∧ c.2 + d.2 < m.width
  · have hget : pyGet m.height m.width s.grid np = some (s.grid np) := pyGet_inB hbnd
    by_cases hcond : s.grid np = 0 ∧ (visFind s.vis np).isNone
    · have hnotmem : np ∉ visKeys s.vis :=
        visFind_eq_none.mp (Option.isNone_iff_eq_none.mp hcond.2)
      have hg0 : g0 np = 0 := by
        have := hgr np
        rw [if_neg (by simp [hnotmem])] at this
        rw [← this]
        exact hcond.1
      have hset : pySet m.height m.width s.grid np 2 = some (updateG s.grid np 2) :=
        pySet_inB hbnd
      have hne_start : np ≠ m.start_pos := fun h => hnotmem (h ▸ hb.start_mem)
      have hadj : adjStep c np := by
        have : (np.1 - c.1, np.2 - c.2) = d := by
          simp [hnp]
        simpa [adjStep, this] using hd
      have hbuilt' : Built m g0 (s.vis ++ [(np, some c)]) :=
        hb.extend hc hnotmem hadj hbnd hg0 hne_start
      refine ⟨⟨s.queue ++ [np], s.vis ++ [(np, some c)], updateG s.grid np 2⟩, ?_,
        hbuilt', ?_, Or.inr ⟨np, rfl, hnotmem, rfl, rfl⟩, ?_⟩
      · simp only [stepDir]
        rw [if_pos hbnd]
        rw [show pyGet m.height m.width s.grid (c.1 + d.1, c.2 + d.2) =
          some (s.grid np) from hget]
        simp only [hcond.1, hcond.2, and_self, if_true, true_and]
        rw [show pySet m.height m.width s.grid (c.1 + d.1, c.2 + d.2) 2 =
          some (updateG s.grid np 2) from hset]
      · intro p
        by_cases hp : p = np
        · subst hp
          rw [if_pos ⟨by rw [visKeys_append]; exact List.mem_append_right _ (by simp [visKeys]),
            hne_start⟩]
          simp [updateG]
        · have : updateG s.grid np 2 p = s.grid p := updateG_ne hp
          simp only [BState.mk.injEq] at *
          rw [this, hgr p]
          have hmem : (p ∈ visKeys (s.vis ++ [(np, some c)])) ↔ p ∈ visKeys s.vis := by
            rw [visKeys_append]
            simp [visKeys, hp]
          by_cases hm : p ∈ visKeys s.vis ∧ p ≠ m.start_pos
          · rw [if_pos hm, if_pos ⟨hmem.mpr hm.1, hm.2⟩]
          · rw [if_neg hm, if_neg (by rw [hmem]; exact hm)]
      · intro _ _
        rw [visKeys_append]
        exact List.mem_append_right _ (by simp [visKeys])
    · refine ⟨s, ?_, hb, hgr, Or.inl ⟨rfl, rfl⟩, ?_⟩
      · simp only [stepDir]
        rw [if_pos hbnd]
        rw [show pyGet m.height m.width s.grid (c.1 + d.1, c.2 + d.2) =
          some (s.grid np) from hget]
        simp only [if_neg hcond]
      · intro hin hg0
        by_cases hfind : (visFind s.vis np).isNone
        · exfalso
          have hnotmem : np ∉ visKeys s.vis :=
            visFind_eq_none.mp (Option.isNone_iff_eq_none.mp hfind)
          have := hgr np
          rw [if_neg (by simp [hnotmem])] at this
          exact hcond ⟨this.trans hg0, hfind⟩
        · by_contra hmem
          exact hfind (Option.isNone_iff_eq_none.mpr (visFind_eq_none.mpr hmem))
  · refine ⟨s, ?_, hb, hgr, Or.inl ⟨rfl, rfl⟩, ?_⟩
    · simp only [stepDir]
      rw [if_neg hbnd]
    · intro hin _
      exact absurd hin hbnd

theorem foldl_stepDir_spec {m : Maze} {g0 : Grid} {c : Pos}
    (dirs : List (Int × Int)) (hdirs : ∀ d ∈ dirs, d ∈ solveDirs) :
    ∀ s : BState, Built m g0 s.vis →
    (∀ p, s.grid p = if p ∈ visKeys s.vis ∧ p ≠ m.start_pos then 2 else g0 p) →
    c ∈ visKeys s.vis →
    ∃ s', List.foldlM (fun st d => stepDir m c st d) s dirs = some s' ∧
      Built m g0 s'.vis ∧
      (∀ p, s'.grid p = if p ∈ visKeys s'.vis ∧ p ≠ m.start_pos then 2 else g0 p) ∧
      ∃ ext, s'.vis = s.vis ++ ext ∧ s'.queue = s.queue ++ visKeys ext ∧
        (∀ e ∈ ext, e.2 = some c) ∧
        (∀ e ∈ ext, depthOf s'.vis e.1 = depthOf s.vis c + 1) ∧
        (∀ d ∈ dirs, inB m (c.1 + d.1, c.2 + d.2) → g0 (c.1 + d.1, c.2 + d.2) = 0 →
          (c.1 + d.1, c.2 + d.2) ∈ visKeys s'.vis) := by
  induction dirs with
  | nil =>
    intro s hb hgr hc
    refine ⟨s, by simp, hb, hgr, [], by simp, by simp [visKeys], by simp, by simp, by simp⟩
  | cons d rest ih =>
    intro s hb hgr hc
    obtain ⟨s1, hs1, hb1, hgr1, hcase, hnb⟩ :=
      stepDir_spec (hdirs d (by simp)) hb hgr hc
    rcases hcase with ⟨hv1, hq1⟩ | ⟨np, hnp, hnotmem, hv1, hq1⟩
    · have hc1 : c ∈ visKeys s1.vis := hv1 ▸ hc
      obtain ⟨s', hs', hb', hgr', ext, hv', hq', hpred, hdep, hnb'⟩ :=
        ih (fun d' hd' => hdirs d' (by simp [hd'])) s1 hb1 hgr1 hc1
      refine ⟨s', ?_, hb', hgr', ext, by rw [hv', hv1], by rw [hq', hq1], hpred, ?_, ?_⟩
      · simp [List.foldlM_cons, hs1, hs']
      · intro e he
        rw [hdep e he, hv1]
      · intro d' hd'
        rcases List.mem_cons.mp hd' with hd' | hd'
        · subst hd'
          intro h1 h2
          have h3 := hnb h1 h2
          rw [hv', visKeys_append]
          exact List.mem_append_left _ h3
        · exact hnb' d' hd'
    · have hc1 : c ∈ visKeys s1.vis := by
        rw [hv1, visKeys_append]
        exact List.mem_append_left _ hc
      obtain ⟨s', hs', hb', hgr', ext, hv', hq', hpred, hdep, hnb'⟩ :=
        ih (fun d' hd' => hdirs d' (by simp [hd'])) s1 hb1 hgr1 hc1
      have hnp_mem1 : np ∈ visKeys s1.vis := by
        rw [hv1, visKeys_append]
        exact List.mem_append_right _ (by simp [visKeys])
      refine ⟨s', ?_, hb', hgr', (np, some c) :: ext, ?_, ?_, ?_, ?_, ?_⟩
      · simp [List.foldlM_cons, hs1, hs']
      · rw [hv', hv1, List.append_assoc]
        rfl
      · rw [hq', hq1, List.append_assoc]
        rfl
      · intro e he
        rcases List.mem_cons.mp he with he | he
        · subst he; rfl
        · exact hpred e he
      · intro e he
        rcases List.mem_cons.mp he with he | he
        · subst he
          have h1 : depthOf s'.vis np = depthOf s1.vis np := by
            rw [hv']
            exact depthOf_append hb1 hnp_mem1
          have h2 : depthOf s1.vis np = depthOf s.vis c + 1 := by
            rw [hv1]
            exact depthOf_snoc_new hb hc hnotmem
          rw [h1, h2]
        · have h1 : depthOf s1.vis c = depthOf s.vis c := by
            rw [hv1]
            exact depthOf_append hb hc
          rw [hdep e he, h1]
      · intro d' hd'
        rcases List.mem_cons.mp hd' with hd' | hd'
        · subst hd'
          intro h1 h2
          have h3 := hnb h1 h2
          rw [hv', visKeys_append]
          exact List.mem_append_left _ h3
        · exact hnb' d' hd'

theorem reachFromN_zero {m : Maze} {g : Grid} {q p : Pos}
    (h : ReachFromN m g q 0 p) : p = q := by
  cases h
  rfl

theorem adjStep_elim {p r : Pos} (h : adjStep p r) :
    ∃ d ∈ solveDirs, r = (p.1 + d.1, p.2 + d.2) := by
  refine ⟨(r.1 - p.1, r.2 - p.2), h, ?_⟩
  obtain ⟨r1, r2⟩ := r
  simp

theorem absorb_lemma {m : Maze} {g0 : Grid} {vis : List (Pos × Option Pos)}
    {queue : List Pos}
    (hpstep : ∀ p ∈ visKeys vis, p ∉ queue → ∀ r, adjStep p r → inB m r →
      g0 r = 0 → r ∈ visKeys vis ∧ depthOf vis r ≤ depthOf vis p + 1) :
    ∀ {k2 : Nat} {q p : Pos}, q ∈ visKeys vis → ReachFromN m g0 q k2 p →
    ∀ k1, depthOf vis q - 1 ≤ k1 →
    (p ∈ visKeys vis ∧ depthOf vis p - 1 ≤ k1 + k2) ∨
    (∃ q' ∈ queue, ∃ k1' k2', k1' + k2' = k1 + k2 ∧ depthOf vis q' - 1 ≤ k1' ∧
      ReachFromN m g0 q' k2' p) := by
  intro k2 q p hq hR
  induction hR with
  | refl =>
    intro k1 hk1
    exact Or.inl ⟨hq, by omega⟩
  | @step k x r hRx hadj hin hg ih =>
    intro k1 hk1
    rcases ih k1 hk1 with ⟨hx_mem, hx_d⟩ | ⟨q', hq', k1', k2', hsum, hd', hR'⟩
    · by_cases hxq : x ∈ queue
      · refine Or.inr ⟨x, hxq, k1 + k, 1, by omega, by omega, ?_⟩
        exact ReachFromN.step ReachFromN.refl hadj hin hg
      · obtain ⟨hr_mem, hr_d⟩ := hpstep x hx_mem hxq r hadj hin hg
        exact Or.inl ⟨hr_mem, by omega⟩
    · exact Or.inr ⟨q', hq', k1', k2' + 1, by omega, hd',
        ReachFromN.step hR' hadj hin hg⟩

theorem bfs_step_inv {m : Maze} {g0 : Grid} {c : Pos} {rest : List Pos} {s : BState}
    (hqs : s.queue = c :: rest) (hinv : BfsInv m g0 s) :
    ∃ s', expandCell m c { s with queue := rest } = some s' ∧ BfsInv m g0 s' ∧
      ∃ k, s'.vis.length = s.vis.length + k ∧ s'.queue.length = rest.length + k := by
  have hc : c ∈ visKeys s.vis := hinv.queue_sub c (by rw [hqs]; exact List.mem_cons_self _ _)
  obtain ⟨s', hs', hb', hgr', ext, hv', hq', hpred, hdep, hnb⟩ :=
    foldl_stepDir_spec solveDirs (fun d hd => hd) { s with queue := rest }
      hinv.built hinv.grid_eq hc
  have hkeys' : visKeys s'.vis = visKeys s.vis ++ visKeys ext := by
    rw [hv']
    exact visKeys_append
  have hnodup3 := hb'.keys_nodup
  rw [hkeys', List.nodup_append] at hnodup3
  obtain ⟨hndL, hndE, hdisj⟩ := hnodup3
  have hdstable : ∀ x ∈ visKeys s.vis, depthOf s'.vis x = depthOf s.vis x := by
    intro x hx
    rw [hv']
    exact depthOf_append hinv.built hx
  have hdnewK : ∀ x ∈ visKeys ext, depthOf s'.vis x = depthOf s.vis c + 1 := by
    intro x hx
    rcases List.mem_map.mp hx with ⟨e, he, hex⟩
    rw [← hex]
    exact hdep e he
  have hpw := hinv.qmono
  rw [hqs, List.pairwise_cons] at hpw
  obtain ⟨hcd, hrest_pw⟩ := hpw
  have hqb_old : ∀ a ∈ rest, depthOf s.vis a ≤ depthOf s.vis c + 1 := by
    intro a ha
    exact hinv.qbound a (by rw [hqs]; exact List.mem_cons_of_mem _ ha) c (by rw [hqs]; rfl)
  have hrest_sub : ∀ p ∈ rest, p ∈ visKeys s.vis := by
    intro p hp
    exact hinv.queue_sub p (by rw [hqs]; exact List.mem_cons_of_mem _ hp)
  have hq'eq : s'.queue = rest ++ visKeys ext := hq'
  have hrest_nodup : rest.Nodup := by
    have := hinv.queue_nodup
    rw [hqs, List.nodup_cons] at this
    exact this.2
  have hc_not_rest : c ∉ rest := by
    have := hinv.queue_nodup
    rw [hqs, List.nodup_cons] at this
    exact this.1
  -- the new pstep field
  have hpstep' : ∀ p ∈ visKeys s'.vis, p ∉ s'.queue → ∀ r, adjStep p r → inB m r →
      g0 r = 0 → r ∈ visKeys s'.vis ∧ depthOf s'.vis r ≤ depthOf s'.vis p + 1 := by
    intro p hp hpq r hadj hin hg
    rw [hkeys'] at hp
    rcases List.mem_append.mp hp with hp | hp
    · by_cases hpc : p = c
      · subst hpc
        obtain ⟨d, hd, hrd⟩ := adjStep_elim hadj
        have hr_mem : r ∈ visKeys s'.vis := by
          rw [hrd]
          exact hnb d hd (by rw [← hrd]; exact hin) (by rw [← hrd]; exact hg)
        refine ⟨hr_mem, ?_⟩
        rw [hkeys'] at hr_mem
        rcases List.mem_append.mp hr_mem with hr | hr
        · rw [hdstable r hr, hdstable p hp]
          by_cases hrq : r ∈ s.queue
          · rw [hqs] at hrq
            rcases List.mem_cons.mp hrq with hrq | hrq
            · subst hrq; omega
            · exact hqb_old r hrq
          · have := hinv.pdone r hr hrq p
              (by rw [hqs]; exact List.mem_cons_self _ _)
            omega
        · rw [hdnewK r hr, hdstable p hp]
      · have hpnotq : p ∉ s.queue := by
          rw [hqs]
          intro hmem
          rcases List.mem_cons.mp hmem with h | h
          · exact hpc h
          · exact hpq (by rw [hq'eq]; exact List.mem_append_left _ h)
        obtain ⟨hr_mem, hr_d⟩ := hinv.pstep p hp hpnotq r hadj hin hg
        refine ⟨by rw [hkeys']; exact List.mem_append_left _ hr_mem, ?_⟩
        rw [hdstable r hr_mem, hdstable p hp]
        exact hr_d
    · exfalso
      exact hpq (by rw [hq'eq]; exact List.mem_append_right _ hp)
  refine ⟨s', hs', ⟨hb', hgr', ?_, ?_, hpstep', ?_, ?_, ?_, ?_, ?_⟩,
    ext.length, by rw [hv']; simp, by rw [hq'eq]; simp [visKeys]⟩
  · -- queue_sub
    intro p hp
    rw [hq'eq] at hp
    rw [hkeys']
    rcases List.mem_append.mp hp with hp | hp
    · exact List.mem_append_left _ (hrest_sub p hp)
    · exact List.mem_append_right _ hp
  · -- queue_nodup
    rw [hq'eq, List.nodup_append]
    exact ⟨hrest_nodup, hndE, fun a ha => hdisj (hrest_sub a ha)⟩
  · -- qmono
    rw [hq'eq]
    rw [List.pairwise_append]
    refine ⟨?_, ?_, ?_⟩
    · refine List.Pairwise.imp_of_mem ?_ hrest_pw
      intro a b ha hb hab
      rw [hdstable a (hrest_sub a ha), hdstable b (hrest_sub b hb)]
      exact hab
    · exact List.pairwise_of_forall_mem_list
        (fun a ha b hb => by rw [hdnewK a ha, hdnewK b hb])
    · intro a ha b hb
      rw [hdstable a (hrest_sub a ha), hdnewK b hb]
      exact hqb_old a ha
  · -- qbound
    intro a ha hd hhd
    rw [hq'eq] at ha hhd
    cases hrest : rest with
    | cons r0 rest' =>
      rw [hrest] at hhd
      simp at hhd
      subst hhd
      have hr0 : depthOf s.vis c ≤ depthOf s.vis r0 := hcd r0 (by rw [hrest]; simp)
      have hd'r0 : depthOf s'.vis r0 = depthOf s.vis r0 :=
        hdstable r0 (hrest_sub r0 (by rw [hrest]; simp))
      rcases List.mem_append.mp ha with ha | ha
      · rw [hdstable a (hrest_sub a ha), hd'r0]
        have := hqb_old a ha
        omega
      · rw [hdnewK a ha, hd'r0]
        omega
    | nil =>
      rw [hrest, List.nil_append] at ha hhd
      have hhd_mem : hd ∈ visKeys ext := List.mem_of_mem_head? (Option.mem_def.mpr hhd)
      rw [hdnewK a ha, hdnewK hd hhd_mem]
      omega
  · -- pdone
    intro p hp hpq q hq
    rw [hkeys'] at hp
    rw [hq'eq] at hpq hq
    rcases List.mem_append.mp hp with hp | hp
    · by_cases hpc : p = c
      · subst hpc
        rcases List.mem_append.mp hq with hq | hq
        · rw [hdstable p hp, hdstable q (hrest_sub q hq)]
          exact hcd q hq
        · rw [hdstable p hp, hdnewK q hq]
          omega
      · have hpnotq : p ∉ s.queue := by
          rw [hqs]
          intro hmem
          rcases List.mem_cons.mp hmem with h | h
          · exact hpc h
          · exact hpq (List.mem_append_left _ h)
        have hpc_le : depthOf s.vis p ≤ depthOf s.vis c :=
          hinv.pdone p hp hpnotq c (by rw [hqs]; exact List.mem_cons_self _ _)
        rcases List.mem_append.mp hq with hq | hq
        · rw [hdstable p hp, hdstable q (hrest_sub q hq)]
          exact hinv.pdone p hp hpnotq q (by rw [hqs]; exact List.mem_cons_of_mem _ hq)
        · rw [hdstable p hp, hdnewK q hq]
          omega
    · exfalso
      exact hpq (List.mem_append_right _ hp)
  · -- sound
    intro p hp
    rw [hkeys'] at hp
    rcases List.mem_append.mp hp with hp | hp
    · rw [hdstable p hp]
      exact hinv.sound p hp
    · rcases List.mem_map.mp hp with ⟨e, he, hep⟩
      have hpred_e := hpred e he
      have he_eq : e = (p, some c) := Prod.ext hep hpred_e
      have hentry : ((p, some c) : Pos × Option Pos) ∈ s'.vis := by
        rw [hv']
        exact List.mem_append_right _ (he_eq ▸ he)
      obtain ⟨_, hadj, hin, hg, _⟩ := hb'.entry_some hentry
      have hsound_c := hinv.sound c hc
      have hdc1 : 1 ≤ depthOf s.vis c := depthOf_ge_one _ _
      have hstep := ReachFromN.step hsound_c hadj hin hg
      have heq : depthOf s'.vis p - 1 = depthOf s.vis c - 1 + 1 := by
        rw [hdnewK p hp]
        omega
      rw [heq]
      exact hstep
  · -- mincov
    intro n p hR
    rcases hinv.mincov n p hR with ⟨hp_mem, hp_d⟩ | ⟨q, hqm, k1, k2, hsum, hdq, hRq⟩
    · exact Or.inl ⟨by rw [hkeys']; exact List.mem_append_left _ hp_mem,
        by rw [hdstable p hp_mem]; exact hp_d⟩
    · rw [hqs] at hqm
      rcases List.mem_cons.mp hqm with hqc | hqrest
      · subst hqc
        have hq_mem' : q ∈ visKeys s'.vis := by
          rw [hkeys']
          exact List.mem_append_left _ hc
        have hdq' : depthOf s'.vis q - 1 ≤ k1 := by
          rw [hdstable q hc]
          exact hdq
        have habs := absorb_lemma hpstep' hq_mem' hRq k1 hdq'
        rcases habs with ⟨hmem, hd⟩ | ⟨q', hq', k1', k2', hsum', hd', hR'⟩
        · exact Or.inl ⟨hmem, by omega⟩
        · exact Or.inr ⟨q', hq', k1', k2', by omega, hd', hR'⟩
      · refine Or.inr ⟨q, ?_, k1, k2, hsum, ?_, hRq⟩
        · rw [hq'eq]
          exact List.mem_append_left _ hqrest
        · rw [hdstable q (hrest_sub q hqrest)]
          exact hdq

theorem bfsInv_init (m : Maze) (g0 : Grid) :
    BfsInv m g0 ⟨[m.start_pos], [(m.start_pos, none)], g0⟩ := by
  have hb : Built m g0 [(m.start_pos, none)] := Built.start
  have hkeys : visKeys [(m.start_pos, (none : Option Pos))] = [m.start_pos] := rfl
  have hd : depthOf [(m.start_pos, (none : Option Pos))] m.start_pos = 1 :=
    depthOf_start hb
  refine ⟨hb, ?_, ?_, List.nodup_singleton _, ?_, ?_, ?_, ?_, ?_, ?_⟩
  · intro p
    rw [if_neg]
    rintro ⟨h1, h2⟩
    rw [hkeys] at h1
    simp at h1
    exact h2 h1
  · intro p hp
    rw [hkeys]
    exact hp
  · intro p hp hpq
    rw [hkeys] at hp
    simp at hp
    subst hp
    simp at hpq
  · exact List.pairwise_singleton _ _
  · intro a ha hd' hhd
    simp at ha hhd
    subst ha
    subst hhd
    omega
  · intro p hp hpq
    rw [hkeys] at hp
    simp at hp
    subst hp
    simp at hpq
  · intro p hp
    rw [hkeys] at hp
    simp at hp
    subst hp
    rw [hd]
    exact ReachFromN.refl
  · intro n p hR
    refine Or.inr ⟨m.start_pos, by simp, 0, n, by omega, by rw [hd], hR⟩

theorem bfsLoop_run {m : Maze} {g0 : Grid} :
    ∀ (fuel : Nat) (s : BState), BfsInv m g0 s →
    s.queue.length + (visBound m + 1 - s.vis.length) + 1 ≤ fuel →
    ∃ s', bfsLoop m fuel s = some s' ∧ Built m g0 s'.vis ∧
      (∀ p, s'.grid p = if p ∈ visKeys s'.vis ∧ p ≠ m.start_pos then 2 else g0 p) ∧
      (∀ p ∈ visKeys s'.vis, ReachFromN m g0 m.start_pos (depthOf s'.vis p - 1) p) ∧
      (∀ n, ReachFromN m g0 m.start_pos n m.end_pos →
        m.end_pos ∈ visKeys s'.vis ∧ depthOf s'.vis m.end_pos - 1 ≤ n) := by
  intro fuel
  induction fuel with
  | zero =>
    intro s hinv hfuel
    omega
  | succ F ih =>
    intro s hinv hfuel
    cases hq : s.queue with
    | nil =>
      refine ⟨s, by simp [bfsLoop, hq], hinv.built, hinv.grid_eq, hinv.sound, ?_⟩
      intro n hR
      rcases hinv.mincov n _ hR with ⟨h1, h2⟩ | ⟨q, hqmem, _⟩
      · exact ⟨h1, h2⟩
      · rw [hq] at hqmem
        simp at hqmem
    | cons c rest =>
      have hcmem : c ∈ visKeys s.vis :=
        hinv.queue_sub c (by rw [hq]; exact List.mem_cons_self _ _)
      by_cases hce : c = m.end_pos
      · refine ⟨{ s with queue := rest }, by simp [bfsLoop, hq, hce],
          hinv.built, hinv.grid_eq, hinv.sound, ?_⟩
        intro n hR
        rcases hinv.mincov n _ hR with ⟨h1, h2⟩ | ⟨q, hqm, k1, k2, hsum, hdq, hRq⟩
        · exact ⟨h1, h2⟩
        · have hDcq : depthOf s.vis c ≤ depthOf s.vis q := by
            have hpw := hinv.qmono
            rw [hq, List.pairwise_cons] at hpw
            rw [hq] at hqm
            rcases List.mem_cons.mp hqm with h | h
            · rw [h]
            · exact hpw.1 q h
          refine ⟨hce ▸ hcmem, ?_⟩
          show depthOf s.vis m.end_pos - 1 ≤ n
          cases k2 with
          | zero =>
            have hqe : m.end_pos = q := reachFromN_zero hRq
            rw [hqe]
            omega
          | succ k =>
            rw [← hce]
            omega
      · obtain ⟨s1, hs1, hinv1, k, hkv, hkq⟩ := bfs_step_inv hq hinv
        have hlen1 : s1.vis.length ≤ visBound m + 1 := hinv1.built.length_le
        have hlen0 : s.vis.length ≤ visBound m + 1 := hinv.built.length_le
        have hql : s.queue.length = rest.length + 1 := by rw [hq]; rfl
        obtain ⟨s', hrun, hrest⟩ := ih s1 hinv1 (by omega)
        refine ⟨s', ?_, hrest⟩
        simp [bfsLoop, hq, hce, hs1, hrun]

theorem markPath_spec {m : Maze} :
    ∀ (pth : List Pos) (g : Grid),
    (∀ p ∈ pth, p ≠ m.start_pos → p ≠ m.end_pos → inB m p) →
    ∃ g2, markPath m g pth = some g2 ∧
      ∀ q, g2 q = if q ∈ pth ∧ q ≠ m.start_pos ∧ q ≠ m.end_pos then 3 else g q := by
  intro pth
  induction pth with
  | nil =>
    intro g _
    exact ⟨g, by simp [markPath], fun q => by simp⟩
  | cons p rest ih =>
    intro g hin
    by_cases hps : p ≠ m.start_pos ∧ p ≠ m.end_pos
    · have hinp : inB m p := hin p (by simp) hps.1 hps.2
      have hset : pySet m.height m.width g p 3 = some (updateG g p 3) := pySet_inB hinp
      obtain ⟨g2, hmark, hg2⟩ := ih (updateG g p 3)
        (fun x hx h1 h2 => hin x (by simp [hx]) h1 h2)
      refine ⟨g2, ?_, ?_⟩
      · simp only [markPath, if_pos hps, hset]
        exact hmark
      · intro q
        rw [hg2 q]
        by_cases hq : q ∈ rest ∧ q ≠ m.start_pos ∧ q ≠ m.end_pos
        · rw [if_pos hq, if_pos ⟨by simp [hq.1], hq.2⟩]
        · rw [if_neg hq]
          by_cases hqp : q = p
          · subst hqp
            rw [updateG_self, if_pos ⟨by simp, hps⟩]
          · rw [updateG_ne hqp, if_neg]
            intro ⟨h1, h2⟩
            rcases List.mem_cons.mp h1 with h | h
            · exact hqp h
            · exact hq ⟨h, h2⟩
    · obtain ⟨g2, hmark, hg2⟩ := ih g (fun x hx h1 h2 => hin x (by simp [hx]) h1 h2)
      refine ⟨g2, ?_, ?_⟩
      · simp only [markPath, if_neg hps]
        exact hmark
      · intro q
        rw [hg2 q]
        by_cases hq : q ∈ rest ∧ q ≠ m.start_pos ∧ q ≠ m.end_pos
        · rw [if_pos hq, if_pos ⟨by simp [hq.1], hq.2⟩]
        · rw [if_neg hq, if_neg]
          intro ⟨h1, h2⟩
          rcases List.mem_cons.mp h1 with h | h
          · subst h
            exact hps h2
          · exact hq ⟨h, h2⟩

theorem solveAux_run (m : Maze) :
    ∃ (visf : List (Pos × Option Pos)) (pth : List Pos) (g2 : Grid),
      solveAux m = some (pth.reverse, { m with grid := g2 }, visf) ∧
      Built m m.grid visf ∧
      (∀ q, g2 q =
        if q ∈ pth ∧ q ≠ m.start_pos ∧ q ≠ m.end_pos then 3
        else if q ∈ visKeys visf ∧ q ≠ m.start_pos then 2 else m.grid q) ∧
      pth ≠ [] ∧ pth.head? = some m.end_pos ∧
      (m.end_pos ∈ visKeys visf →
        pth.getLast? = some m.start_pos ∧
        List.Chain' (fun a b => adjStep b a) pth ∧
        (∀ x ∈ pth, x ∈ visKeys visf) ∧
        pth.length = depthOf visf m.end_pos ∧
        (∀ x ∈ pth, x ≠ m.start_pos → inB m x ∧ m.grid x = 0)) ∧
      (m.end_pos ∉ visKeys visf → pth = [m.end_pos]) ∧
      (∀ x ∈ pth, x ≠ m.start_pos → x ≠ m.end_pos → inB m x ∧ m.grid x = 0) ∧
      (∀ x ∈ pth, x ≠ m.end_pos → x ∈ visKeys visf) ∧
      (∀ p ∈ visKeys visf, ReachFromN m m.grid m.start_pos (depthOf visf p - 1) p) ∧
      (∀ n, ReachFromN m m.grid m.start_pos n m.end_pos →
        m.end_pos ∈ visKeys visf ∧ depthOf visf m.end_pos - 1 ≤ n) := by
  obtain ⟨s', hrun, hb', hgr', hsound, hmin⟩ :=
    bfsLoop_run (bfsFuel m) ⟨[m.start_pos], [(m.start_pos, none)], m.grid⟩
      (bfsInv_init m m.grid)
      (by simp [bfsFuel, visBound]; omega)
  by_cases hmem : m.end_pos ∈ visKeys s'.vis
  · obtain ⟨l, hl, hhead, hlast, hpos, hlen, hsub, hchain, hprops⟩ := recon_built hb' hmem
    have hrecon : recon s'.vis (s'.vis.length + 1) m.end_pos = some l := hl _ (by omega)
    have hmark_pre : ∀ p ∈ l, p ≠ m.start_pos → p ≠ m.end_pos → inB m p :=
      fun p hp h1 _ => (hprops p hp h1).1
    obtain ⟨g2, hmark, hg2⟩ := markPath_spec l s'.grid hmark_pre
    refine ⟨s'.vis, l, g2, ?_, hb', ?_, ?_, hhead, ?_, fun h => absurd hmem h,
      fun x hx h1 _ => hprops x hx h1, fun x hx _ => hsub x hx, hsound, hmin⟩
    · simp [solveAux, hrun, hrecon, hmark]
    · intro q
      rw [hg2 q, hgr' q]
    · intro h
      rw [h] at hpos
      simp at hpos
    · intro _
      exact ⟨hlast, hchain, hsub, (depthOf_eq_of_built hl hlen).symm, hprops⟩
  · have hfind : visFind s'.vis m.end_pos = none := visFind_eq_none.mpr hmem
    have hrecon : recon s'.vis (s'.vis.length + 1) m.end_pos = some [m.end_pos] := by
      simp [recon, hfind]
    obtain ⟨g2, hmark, hg2⟩ := markPath_spec [m.end_pos] s'.grid
      (fun p hp h1 h2 => by simp at hp; exact absurd hp h2)
    refine ⟨s'.vis, [m.end_pos], g2, ?_, hb', ?_, by simp, by simp, ?_,
      fun _ => rfl, ?_, ?_, hsound, hmin⟩
    · simp [solveAux, hrun, hrecon, hmark]
    · intro q
      rw [hg2 q, hgr' q]
    · intro h
      exact absurd h hmem
    · intro x hx h1 h2
      simp at hx
      exact absurd hx h2
    · intro x hx h2
      simp at hx
      exact absurd hx h2

theorem interiorP_inB {m : Maze} {p : Pos} (h : interiorP m p) : inB m p := by
  obtain ⟨h1, h2, h3, h4⟩ := h
  exact ⟨by omega, by omega, by omega, by omega⟩

theorem carveNeighbors_head {m : Maze} {g : Grid} {c : Pos} {dirs : List (Int × Int)}
    {nxt wd : Pos} {tl : List (Pos × Pos)}
    (h : carveNeighbors m g c dirs = (nxt, wd) :: tl) :
    interiorP m nxt ∧ g nxt = -1 ∧
    ∃ d ∈ dirs, nxt = (c.1 + d.1, c.2 + d.2) ∧ wd = (d.1 / 2, d.2 / 2) := by
  have hmem : (nxt, wd) ∈ carveNeighbors m g c dirs := by rw [h]; simp
  rw [carveNeighbors] at hmem
  rcases List.mem_filterMap.mp hmem with ⟨d, hd, hsome⟩
  simp only at hsome
  by_cases hcond : 0 < c.1 + d.1 ∧ c.1 + d.1 < m.height - 1 ∧ 0 < c.2 + d.2 ∧
      c.2 + d.2 < m.width - 1 ∧ g (c.1 + d.1, c.2 + d.2) = -1
  · rw [if_pos hcond] at hsome
    simp at hsome
    obtain ⟨h1, h2⟩ := hsome
    refine ⟨?_, ?_, d, hd, h1.symm, h2.symm⟩
    · rw [← h1]
      exact ⟨hcond.1, hcond.2.1, hcond.2.2.1, hcond.2.2.2.1⟩
    · rw [← h1]
      exact hcond.2.2.2.2
  · rw [if_neg hcond] at hsome
    simp at hsome

theorem wall_interior {m : Maze} {c nxt wd : Pos} {d : Int × Int}
    (hc : interiorP m c) (hn : interiorP m nxt)
    (hnd : nxt = (c.1 + d.1, c.2 + d.2)) (hwd : wd = (d.1 / 2, d.2 / 2)) :
    interiorP m (c.1 + wd.1, c.2 + wd.2) := by
  obtain ⟨c1, c2, c3, c4⟩ := hc
  obtain ⟨n1, n2, n3, n4⟩ := hn
  rw [hnd] at n1 n2 n3 n4
  simp only at n1 n2 n3 n4
  rw [hwd]
  refine ⟨?_, ?_, ?_, ?_⟩ <;> simp only <;> omega

theorem pushed_le {m : Maze} {l : List Pos} (hnd : l.Nodup)
    (hint : ∀ p ∈ l, interiorP m p) :
    l.length ≤ (m.height - 2).toNat * (m.width - 2).toNat := by
  have hsub : l.toFinset ⊆
      (Finset.Ico (1 : Int) (m.height - 1)) ×ˢ (Finset.Ico (1 : Int) (m.width - 1)) := by
    intro x hx
    obtain ⟨h1, h2, h3, h4⟩ := hint x (List.mem_toFinset.mp hx)
    rw [Finset.mem_product, Finset.mem_Ico, Finset.mem_Ico]
    exact ⟨⟨h1, h2⟩, ⟨h3, h4⟩⟩
  have hcard := Finset.card_le_card hsub
  rw [List.toFinset_card_of_nodup hnd] at hcard
  rw [Finset.card_product, Int.card_Ico, Int.card_Ico] at hcard
  have e1 : m.height - 1 - 1 = m.height - 2 := by ring
  have e2 : m.width - 1 - 1 = m.width - 2 := by ring
  rw [e1, e2] at hcard
  exact hcard

theorem carveLoop_run {m : Maze} {ginit : Grid} {sh : Nat → List (Int × Int)} :
    ∀ (fuel : Nat) (s : CState), CarveInv m ginit s →
    2 * ((m.height - 2).toNat * (m.width - 2).toNat - s.pushed.length) +
      s.stack.length + 1 ≤ fuel →
    ∃ s', carveLoop m sh fuel s = some s' ∧ CarveInv m ginit s' ∧ s'.stack = [] := by
  intro fuel
  induction fuel with
  | zero =>
    intro s hinv hfuel
    omega
  | succ F ih =>
    intro s hinv hfuel
    cases hst : s.stack with
    | nil =>
      exact ⟨s, by simp [carveLoop, hst], hinv, hst⟩
    | cons c rest =>
      have hc_int : interiorP m c := hinv.stack_int c (by rw [hst]; simp)
      cases hnb : carveNeighbors m s.grid c (sh s.k) with
      | nil =>
        have hinv2 : CarveInv m ginit { s with stack := rest, k := s.k + 1 } :=
          ⟨fun p hp => hinv.stack_int p (by rw [hst]; exact List.mem_cons_of_mem _ hp),
            hinv.pushed_int, hinv.pushed_nodup, hinv.pushed_zero, hinv.frame⟩
        have hql : s.stack.length = rest.length + 1 := by rw [hst]; rfl
        obtain ⟨s', hrun, hinv', hstk⟩ := ih { s with stack := rest, k := s.k + 1 }
          hinv2 (by simp only; omega)
        refine ⟨s', ?_, hinv', hstk⟩
        simp [carveLoop, hst, hnb, hrun]
      | cons nw tl =>
        obtain ⟨nxt, wd⟩ := nw
        obtain ⟨hn_int, hg_nxt, d, hd, hnd, hwd⟩ := carveNeighbors_head hnb
        have hw_int : interiorP m (c.1 + wd.1, c.2 + wd.2) :=
          wall_interior hc_int hn_int hnd hwd
        have hset1 : pySet m.height m.width s.grid (c.1 + wd.1, c.2 + wd.2) 0 =
            some (updateG s.grid (c.1 + wd.1, c.2 + wd.2) 0) :=
          pySet_inB (interiorP_inB hw_int)
        have hset2 : pySet m.height m.width (updateG s.grid (c.1 + wd.1, c.2 + wd.2) 0)
            nxt 0 = some (updateG (updateG s.grid (c.1 + wd.1, c.2 + wd.2) 0) nxt 0) :=
          pySet_inB (interiorP_inB hn_int)
        have hnxt_new : nxt ∉ s.pushed := by
          intro hmem
          rw [hinv.pushed_zero nxt hmem] at hg_nxt
          exact absurd hg_nxt (by norm_num)
        have hinv2 : CarveInv m ginit
            ⟨updateG (updateG s.grid (c.1 + wd.1, c.2 + wd.2) 0) nxt 0,
              nxt :: c :: rest, s.k + 1, s.pushed ++ [nxt]⟩ := by
          refine ⟨?_, ?_, ?_, ?_, ?_⟩
          · intro p hp
            rcases List.mem_cons.mp hp with hp | hp
            · rw [hp]; exact hn_int
            · exact hinv.stack_int p (by rw [hst]; exact hp)
          · intro p hp
            rcases List.mem_append.mp hp with hp | hp
            · exact hinv.pushed_int p hp
            · simp at hp
              rw [hp]; exact hn_int
          · rw [List.nodup_append]
            exact ⟨hinv.pushed_nodup, List.nodup_singleton _,
              fun a ha hb => by simp at hb; exact hnxt_new (hb ▸ ha)⟩
          · intro p hp
            show updateG (updateG s.grid (c.1 + wd.1, c.2 + wd.2) 0) nxt 0 p = 0
            rcases List.mem_append.mp hp with hp | hp
            · have hzero := hinv.pushed_zero p hp
              by_cases hpn : p = nxt
              · rw [hpn, updateG_self]
              · rw [updateG_ne hpn]
                by_cases hpw : p = (c.1 + wd.1, c.2 + wd.2)
                · rw [hpw, updateG_self]
                · rw [updateG_ne hpw]
                  exact hzero
            · simp at hp
              rw [hp, updateG_self]
          · intro p hpint
            show updateG (updateG s.grid (c.1 + wd.1, c.2 + wd.2) 0) nxt 0 p = ginit p
            have hpn : p ≠ nxt := fun h => hpint (h ▸ hn_int)
            have hpw : p ≠ (c.1 + wd.1, c.2 + wd.2) := fun h => hpint (h ▸ hw_int)
            rw [updateG_ne hpn, updateG_ne hpw]
            exact hinv.frame p hpint
        have hple : (s.pushed ++ [nxt]).length ≤
            (m.height - 2).toNat * (m.width - 2).toNat :=
          pushed_le hinv2.pushed_nodup hinv2.pushed_int
        have hql : s.stack.length = rest.length + 1 := by rw [hst]; rfl
        have hpl : (s.pushed ++ [nxt]).length = s.pushed.length + 1 := by simp
        rw [hpl] at hple
        have hfuel2 : 2 * ((m.height - 2).toNat * (m.width - 2).toNat -
            (s.pushed ++ [nxt]).length) + (nxt :: c :: rest).length + 1 ≤ F := by
          rw [hpl]
          simp only [List.length_cons]
          omega
        obtain ⟨s', hrun, hinv', hstk⟩ := ih _ hinv2 hfuel2
        refine ⟨s', ?_, hinv', hstk⟩
        simp [carveLoop, hst, hnb, hset1, hset2, hrun]

theorem generate_spec (m : Maze) (sh : Nat → List (Int × Int))
    (h3w : 3 ≤ m.width) (h3h : 3 ≤ m.height) :
    ∃ mg st, carveRun m sh = some st ∧ st.stack = [] ∧ st.pushed.Nodup ∧
      (∀ c ∈ st.pushed, interiorP m c ∧ st.grid c = 0) ∧
      m.generate_maze sh = some mg ∧ mg.width = m.width ∧ mg.height = m.height ∧
      mg.start_pos = (0, 1) ∧ mg.end_pos = (m.height - 1, m.width - 2) ∧
      mg.grid (0, 1) = 0 ∧ mg.grid (m.height - 1, m.width - 2) = 0 ∧
      (∀ p, ¬ interiorP m p → p ≠ (0, 1) → p ≠ (m.height - 1, m.width - 2) →
        mg.grid p = -1) := by
  have hset0 : pySet m.height m.width (fun _ => -1) (1, 1) 0 =
      some (updateG (fun _ => -1) (1, 1) 0) :=
    pySet_inB ⟨by norm_num, by omega, by norm_num, by omega⟩
  have hint11 : interiorP m ((1 : Int), (1 : Int)) :=
    ⟨by norm_num, by omega, by norm_num, by omega⟩
  have hinv0 : CarveInv m (updateG (fun _ => -1) (1, 1) 0)
      ⟨updateG (fun _ => -1) (1, 1) 0, [(1, 1)], 0, []⟩ := by
    refine ⟨?_, by simp, by simp, by simp, fun p _ => rfl⟩
    intro p hp
    simp at hp
    rw [hp]
    exact hint11
  obtain ⟨st, hrun, hinv', hstk⟩ := @carveLoop_run m (updateG (fun _ => -1) (1, 1) 0)
    sh (carveFuel m) ⟨updateG (fun _ => -1) (1, 1) 0, [(1, 1)], 0, []⟩ hinv0
    (by simp [carveFuel])
  have hcr : carveRun m sh = some st := by
    simp only [carveRun]
    rw [hset0]
    exact hrun
  have hset2 : pySet m.height m.width st.grid (0, 1) 0 =
      some (updateG st.grid (0, 1) 0) :=
    pySet_inB ⟨by norm_num, by omega, by norm_num, by omega⟩
  have hset3 : pySet m.height m.width (updateG st.grid (0, 1) 0)
      (m.height - 1, m.width - 2) 0 =
      some (updateG (updateG st.grid (0, 1) 0) (m.height - 1, m.width - 2) 0) :=
    pySet_inB ⟨by omega, by omega, by omega, by omega⟩
  have hne_se : ((0 : Int), (1 : Int)) ≠ (m.height - 1, m.width - 2) := by
    intro h
    have := congrArg Prod.fst h
    simp at this
    omega
  refine ⟨⟨m.width, m.height,
      updateG (updateG st.grid (0, 1) 0) (m.height - 1, m.width - 2) 0,
      (0, 1), (m.height - 1, m.width - 2)⟩, st,
    hcr, hstk, hinv'.pushed_nodup,
    fun c hc => ⟨hinv'.pushed_int c hc, hinv'.pushed_zero c hc⟩,
    ?_, rfl, rfl, rfl, rfl, ?_, ?_, ?_⟩
  · simp [Maze.generate_maze, hcr, hset2, hset3]
  · show updateG (updateG st.grid (0, 1) 0) (m.height - 1, m.width - 2) 0 (0, 1) = 0
    rw [updateG_ne hne_se, updateG_self]
  · show updateG (updateG st.grid (0, 1) 0) (m.height - 1, m.width - 2) 0
      (m.height - 1, m.width - 2) = 0
    rw [updateG_self]
  · intro p hpint hp1 hp2
    show updateG (updateG st.grid (0, 1) 0) (m.height - 1, m.width - 2) 0 p = -1
    rw [updateG_ne hp2, updateG_ne hp1]
    have h1 : st.grid p = updateG (fun _ => -1) (1, 1) 0 p := hinv'.frame p hpint
    have hp11 : p ≠ ((1 : Int), (1 : Int)) := fun h => hpint (h ▸ hint11)
    rw [h1, updateG_ne hp11]

theorem borderP_not_interior {m : Maze} {p : Pos} (h : borderP m p) :
    ¬ interiorP m p := by
  obtain ⟨⟨i1, i2, i3, i4⟩, hedge⟩ := h
  rintro ⟨j1, j2, j3, j4⟩
  rcases hedge with h | h | h | h <;> omega

theorem solve_sequential_of_aux {m : Maze} {pth : List Pos} {m2 : Maze}
    {visf : List (Pos × Option Pos)} (h : solveAux m = some (pth, m2, visf)) :
    Maze.solve_sequential m = some (pth, m2) := by
  rw [Maze.solve_sequential, h]
  rfl

theorem no_reach_all_wall {m : Maze} (hg : ∀ p, m.grid p ≠ 0)
    (hne : m.start_pos ≠ m.end_pos) :
    ¬ Reaches m m.grid m.start_pos m.end_pos := by
  have key : ∀ (n : Nat) (e : Pos), ReachFromN m m.grid m.start_pos n e →
      e = m.start_pos := by
    intro n e hR
    induction hR with
    | refl => rfl
    | step _ _ _ hg0 _ => exact absurd hg0 (hg _)
  rintro ⟨n, hR⟩
  exact hne (key n _ hR).symm

/-- Repackaging of `solveAux_run` in terms of `solve_sequential` and the
returned maze: the full characterisation of the solver's output. -/
theorem solve_run {m : Maze} {p : List Pos} {m2 : Maze}
    (hsolve : Maze.solve_sequential m = some (p, m2)) :
    ∃ (visf : List (Pos × Option Pos)) (pth : List Pos),
      p = pth.reverse ∧ Built m m.grid visf ∧
      (∀ q, m2.grid q =
        if q ∈ pth ∧ q ≠ m.start_pos ∧ q ≠ m.end_pos then 3
        else if q ∈ visKeys visf ∧ q ≠ m.start_pos then 2 else m.grid q) ∧
      m2.width = m.width ∧ m2.height = m.height ∧
      m2.start_pos = m.start_pos ∧ m2.end_pos = m.end_pos ∧
      pth ≠ [] ∧ pth.head? = some m.end_pos ∧
      (m.end_pos ∈ visKeys visf →
        pth.getLast? = some m.start_pos ∧
        List.Chain' (fun a b => adjStep b a) pth ∧
        (∀ x ∈ pth, x ∈ visKeys visf) ∧
        pth.length = depthOf visf m.end_pos ∧
        (∀ x ∈ pth, x ≠ m.start_pos → inB m x ∧ m.grid x = 0)) ∧
      (m.end_pos ∉ visKeys visf → pth = [m.end_pos]) ∧
      (∀ x ∈ pth, x ≠ m.start_pos → x ≠ m.end_pos → inB m x ∧ m.grid x = 0) ∧
      (∀ x ∈ pth, x ≠ m.end_pos → x ∈ visKeys visf) ∧
      (∀ q ∈ visKeys visf, ReachFromN m m.grid m.start_pos (depthOf visf q - 1) q) ∧
      (∀ n, ReachFromN m m.grid m.start_pos n m.end_pos →
        m.end_pos ∈ visKeys visf ∧ depthOf visf m.end_pos - 1 ≤ n) := by
  obtain ⟨visf, pth, g2, haux, hbuilt, hgrid, hne, hhead, hreached, hunreached,
    hpth0, hpthk, hsound, hmin⟩ := solveAux_run m
  have heq := (solve_sequential_of_aux haux).symm.trans hsolve
  have heq2 := Option.some.inj heq
  have hp : pth.reverse = p := congrArg Prod.fst heq2
  have hm2 : ({ m with grid := g2 } : Maze) = m2 := congrArg Prod.snd heq2
  refine ⟨visf, pth, hp.symm, hbuilt, ?_, ?_, ?_, ?_, ?_, hne, hhead, hreached,
    hunreached, hpth0, hpthk, hsound, hmin⟩
  · intro q
    rw [← hm2]
    exact hgrid q
  · rw [← hm2]
  · rw [← hm2]
  · rw [← hm2]
  · rw [← hm2]

/-- C3 (counterexample): constructing a 2×2 `Maze` does not fail — the
constructor performs no dimension validation at all; it returns a
fully-formed maze with the requested dimensions, an all-wall grid, and
the default entrance and exit. -/
theorem c3_counterexample :
    (Maze.init 2 2).width = 2 ∧ (Maze.init 2 2).height = 2 ∧
    (Maze.init 2 2).grid (0, 0) = -1 ∧ (Maze.init 2 2).start_pos = (0, 0) ∧
    (Maze.init 2 2).end_pos = (1, 1) := by
  refine ⟨rfl, rfl, rfl, rfl, ?_⟩
  show ((2 : Int) - 1, (2 : Int) - 1) = (1, 1)
  norm_num

/-- C3 (amended): `Maze.__init__` never fails: for every width and height
(valid or not) it returns a maze with the given dimensions, an all-wall
grid, `start_pos = (0, 0)` and `end_pos = (height - 1, width - 1)`; no
`InvalidDimensions` check exists in the code. -/
theorem c3_amended : ∀ w h : Int,
    (Maze.init w h).width = w ∧ (Maze.init w h).height = h ∧
    (∀ p, (Maze.init w h).grid p = -1) ∧ (Maze.init w h).start_pos = (0, 0) ∧
    (Maze.init w h).end_pos = (h - 1, w - 1) :=
  fun _ _ => ⟨rfl, rfl, fun _ => rfl, rfl, rfl⟩

/-- C10: for every maze whose entrance and exit are in bounds,
`solve_sequential` completes without any out-of-range grid access and
without exhausting its loop bounds: the embedding, in which every read
and write goes through the checked `pyGet`/`pySet` and failure propagates
as `none`, returns `some` result. -/
theorem c10_inbounds : ∀ m : Maze, inB m m.start_pos → inB m m.end_pos →
    ∃ r, solveAux m = some r := by
  intro m _ _
  obtain ⟨visf, pth, g2, haux, _⟩ := solveAux_run m
  exact ⟨_, haux⟩

/-- C10 (witness): the in-bounds hypotheses hold for the freshly built
3×3 maze and the solver completes on it. -/
theorem c10_witness :
    inB (Maze.init 3 3) (Maze.init 3 3).start_pos ∧
    inB (Maze.init 3 3) (Maze.init 3 3).end_pos ∧
    ∃ r, solveAux (Maze.init 3 3) = some r :=
  ⟨by decide, by decide, c10_inbounds (Maze.init 3 3) (by decide) (by decide)⟩

/-- C8: `solve_sequential` never changes a wall cell, never converts any
cell to wall or to passage, and preserves the dimensions and the entrance
and exit positions: walls stay walls, passages become passage, visited or
path cells, and a final wall (resp. passage) value implies the cell was
already a wall (resp. passage). -/
theorem c8_frame : ∀ (m : Maze) (p : List Pos) (m2 : Maze),
    Maze.solve_sequential m = some (p, m2) →
    (∀ q, m.grid q = -1 → m2.grid q = -1) ∧
    (∀ q, m.grid q = 0 → m2.grid q = 0 ∨ m2.grid q = 2 ∨ m2.grid q = 3) ∧
    (∀ q, m2.grid q = -1 → m.grid q = -1) ∧
    (∀ q, m2.grid q = 0 → m.grid q = 0) ∧
    m2.width = m.width ∧ m2.height = m.height ∧
    m2.start_pos = m.start_pos ∧ m2.end_pos = m.end_pos := by
  intro m p m2 hsolve
  obtain ⟨visf, pth, hp, hbuilt, hgq, hw, hh, hs, he, hne, hhead, hreached,
    hunreached, hpth0, hpthk, hsound, hmin⟩ := solve_run hsolve
  refine ⟨?_, ?_, ?_, ?_, hw, hh, hs, he⟩
  · intro q hq
    rw [hgq q]
    rw [if_neg, if_neg]
    · exact hq
    · rintro ⟨hk, hs⟩
      rcases hbuilt.key_props hk with h | ⟨_, h0, _⟩
      · exact hs h
      · rw [hq] at h0; norm_num at h0
    · rintro ⟨hmem, hs, he⟩
      obtain ⟨_, h0⟩ := hpth0 q hmem hs he
      rw [hq] at h0; norm_num at h0
  · intro q hq
    rw [hgq q]
    by_cases h1 : q ∈ pth ∧ q ≠ m.start_pos ∧ q ≠ m.end_pos
    · rw [if_pos h1]; right; right; rfl
    · rw [if_neg h1]
      by_cases h2 : q ∈ visKeys visf ∧ q ≠ m.start_pos
      · rw [if_pos h2]; right; left; rfl
      · rw [if_neg h2]; left; exact hq
  · intro q hq
    rw [hgq q] at hq
    by_cases h1 : q ∈ pth ∧ q ≠ m.start_pos ∧ q ≠ m.end_pos
    · rw [if_pos h1] at hq; norm_num at hq
    · rw [if_neg h1] at hq
      by_cases h2 : q ∈ visKeys visf ∧ q ≠ m.start_pos
      · rw [if_pos h2] at hq; norm_num at hq
      · rw [if_neg h2] at hq; exact hq
  · intro q hq
    rw [hgq q] at hq
    by_cases h1 : q ∈ pth ∧ q ≠ m.start_pos ∧ q ≠ m.end_pos
    · rw [if_pos h1] at hq; norm_num at hq
    · rw [if_neg h1] at hq
      by_cases h2 : q ∈ visKeys visf ∧ q ≠ m.start_pos
      · rw [if_pos h2] at hq; norm_num at hq
      · rw [if_neg h2] at hq; exact hq

/-- C8 (witness): on the generated 3×3 maze the solver's output keeps the
dimensions and endpoints and leaves the wall at `(0, 0)` in place. -/
theorem c8_witness :
    Maze.solve_sequential mgen3 = some (seq3.1, seq3.2) ∧
    mgen3.grid (0, 0) = -1 ∧ seq3.2.grid (0, 0) = -1 ∧
    seq3.2.width = mgen3.width ∧ seq3.2.start_pos = mgen3.start_pos :=
  ⟨rfl, rfl, (c8_frame mgen3 seq3.1 seq3.2 rfl).1 (0, 0) rfl,
    (c8_frame mgen3 seq3.1 seq3.2 rfl).2.2.2.2.1,
    (c8_frame mgen3 seq3.1 seq3.2 rfl).2.2.2.2.2.2.1⟩

/-- C5 (counterexample): on the all-wall 3×3 maze, whose exit is not
reachable from the entrance, `solve_sequential` does not return an empty
sequence — it returns the one-element path `[(2, 2)]` holding the exit. -/
theorem c5_counterexample :
    ¬ Reaches (Maze.init 3 3) (Maze.init 3 3).grid (Maze.init 3 3).start_pos
      (Maze.init 3 3).end_pos ∧
    solvePath (Maze.init 3 3) = some [(2, 2)] ∧
    some [((2 : Int), (2 : Int))] ≠ some ([] : List Pos) := by
  refine ⟨no_reach_all_wall (fun p => by norm_num [Maze.init]) (by decide), ?_, by simp⟩
  rfl

/-- C5 (amended): when the exit is unreachable from the entrance through
passage cells, `solve_sequential` returns the one-element sequence
`[end_pos]` (the exit alone, not the empty sequence), and the only grid
changes are visitation marks on passage cells; no cell is marked with the
path value `3`. -/
theorem c5_amended : ∀ m : Maze, ¬ Reaches m m.grid m.start_pos m.end_pos →
    ∃ m2 : Maze, Maze.solve_sequential m = some ([m.end_pos], m2) ∧
      (∀ q, m2.grid q = m.grid q ∨ (m.grid q = 0 ∧ m2.grid q = 2)) ∧
      (∀ q, m2.grid q = 3 → m.grid q = 3) := by
  intro m hnr
  obtain ⟨visf, pth, g2, haux, hbuilt, hgrid, hne, hhead, hreached, hunreached,
    hpth0, hpthk, hsound, hmin⟩ := solveAux_run m
  have hmem : m.end_pos ∉ visKeys visf := by
    intro hmem
    exact hnr ⟨depthOf visf m.end_pos - 1, hsound _ hmem⟩
  have hpth := hunreached hmem
  subst hpth
  refine ⟨{ m with grid := g2 }, ?_, ?_, ?_⟩
  · have h := solve_sequential_of_aux haux
    simpa using h
  · intro q
    show g2 q = m.grid q ∨ (m.grid q = 0 ∧ g2 q = 2)
    have hq := hgrid q
    by_cases h1 : q ∈ [m.end_pos] ∧ q ≠ m.start_pos ∧ q ≠ m.end_pos
    · simp at h1
      exact absurd h1.1 h1.2.2
    · rw [if_neg h1] at hq
      by_cases h2 : q ∈ visKeys visf ∧ q ≠ m.start_pos
      · rw [if_pos h2] at hq
        rcases hbuilt.key_props h2.1 with h | ⟨_, h0, _⟩
        · exact absurd h h2.2
        · exact Or.inr ⟨h0, hq⟩
      · rw [if_neg h2] at hq
        exact Or.inl hq
  · intro q hq3
    replace hq3 : g2 q = 3 := hq3
    have hq := hgrid q
    by_cases h1 : q ∈ [m.end_pos] ∧ q ≠ m.start_pos ∧ q ≠ m.end_pos
    · simp at h1
      exact absurd h1.1 h1.2.2
    · rw [if_neg h1] at hq
      by_cases h2 : q ∈ visKeys visf ∧ q ≠ m.start_pos
      · rw [if_pos h2] at hq
        rw [hq] at hq3
        norm_num at hq3
      · rw [if_neg h2] at hq
        rw [← hq]
        exact hq3

/-- C5 (witness): the all-wall 3×3 maze instantiates the amended claim. -/
theorem c5_witness :
    ¬ Reaches (Maze.init 3 3) (Maze.init 3 3).grid (Maze.init 3 3).start_pos
      (Maze.init 3 3).end_pos ∧
    ∃ m2, Maze.solve_sequential (Maze.init 3 3) =
        some ([(Maze.init 3 3).end_pos], m2) ∧
      (∀ q, m2.grid q = (Maze.init 3 3).grid q ∨
        ((Maze.init 3 3).grid q = 0 ∧ m2.grid q = 2)) ∧
      (∀ q, m2.grid q = 3 → (Maze.init 3 3).grid q = 3) := by
  have hnr : ¬ Reaches (Maze.init 3 3) (Maze.init 3 3).grid
      (Maze.init 3 3).start_pos (Maze.init 3 3).end_pos :=
    no_reach_all_wall (fun p => by norm_num [Maze.init]) (by decide)
  exact ⟨hnr, c5_amended (Maze.init 3 3) hnr⟩

/-- C7 (counterexample): on the generated 3×3 maze the exit cell `(2, 1)`
ends up holding the `Visited` value `2` after solving — the exit is given a
visitation mark, which the claim forbids (and the mark is written when the
cell is discovered and enqueued, not when it is dequeued). -/
theorem c7_counterexample :
    solveAux mgen3 = some (aux3.1, aux3.2.1, aux3.2.2) ∧
    mgen3.end_pos = (2, 1) ∧ aux3.2.1.grid (2, 1) = 2 ∧
    ((2 : Int) ≠ 0 ∧ (2 : Int) ≠ -1) :=
  ⟨rfl, rfl, rfl, by norm_num⟩

/-- C7 (amended): exactly the cells recorded in the `visited` map during
the search, the entrance excepted, end up marked: with the path value `3`
when they lie on the reconstructed path (exit excluded), and with the
visitation value `2` otherwise — in particular the exit itself, when
discovered, keeps the `Visited` mark `2`.  Cells never recorded stay
unchanged, the entrance is never marked, and every path cell other than
the endpoints was recorded during the search. -/
theorem c7_amended : ∀ (m : Maze) (p : List Pos) (m2 : Maze)
    (vis : List (Pos × Option Pos)), solveAux m = some (p, m2, vis) →
    m2.grid m.start_pos = m.grid m.start_pos ∧
    (∀ q, q ∈ visKeys vis → q ≠ m.start_pos →
      ((q ∈ p ∧ q ≠ m.end_pos) → m2.grid q = 3) ∧
      ((q ∉ p ∨ q = m.end_pos) → m2.grid q = 2)) ∧
    (∀ q, q ∉ visKeys vis → m2.grid q = m.grid q) ∧
    (∀ q ∈ p, q ≠ m.start_pos → q ≠ m.end_pos → q ∈ visKeys vis) ∧
    (m.end_pos ∈ visKeys vis → m.end_pos ≠ m.start_pos → m2.grid m.end_pos = 2) := by
  intro m p m2 vis h
  obtain ⟨visf, pth, g2, haux, hbuilt, hgrid, hne, hhead, hreached, hunreached,
    hpth0, hpthk, hsound, hmin⟩ := solveAux_run m
  have heq := Option.some.inj (h.symm.trans haux)
  have hp : p = pth.reverse := congrArg (·.1) heq
  have hm2 : m2 = { m with grid := g2 } := congrArg (·.2.1) heq
  have hvs : vis = visf := congrArg (·.2.2) heq
  subst hp
  subst hm2
  subst hvs
  have hmemrev : ∀ q : Pos, q ∈ pth.reverse ↔ q ∈ pth := fun q => List.mem_reverse
  refine ⟨?_, ?_, ?_, ?_, ?_⟩
  · show g2 m.start_pos = m.grid m.start_pos
    rw [hgrid _, if_neg (by rintro ⟨_, hc, _⟩; exact hc rfl),
      if_neg (by rintro ⟨_, hc⟩; exact hc rfl)]
  · intro q hq hqs
    constructor
    · rintro ⟨hqp, hqe⟩
      show g2 q = 3
      rw [hgrid q, if_pos ⟨(hmemrev q).mp hqp, hqs, hqe⟩]
    · intro hcase
      show g2 q = 2
      rw [hgrid q, if_neg, if_pos ⟨hq, hqs⟩]
      rintro ⟨hqp, _, hqe⟩
      rcases hcase with hc | hc
      · exact hc ((hmemrev q).mpr hqp)
      · exact hqe hc
  · intro q hq
    show g2 q = m.grid q
    rw [hgrid q, if_neg, if_neg]
    · rintro ⟨hk, _⟩
      exact hq hk
    · rintro ⟨hqp, _, hqe⟩
      exact hq (hpthk q hqp hqe)
  · intro q hq hqs hqe
    exact hpthk q ((hmemrev q).mp hq) hqe
  · intro hmem hnes
    show g2 m.end_pos = 2
    rw [hgrid _, if_neg (by rintro ⟨_, _, hc⟩; exact hc rfl), if_pos ⟨hmem, hnes⟩]

/-- C7 (witness): the generated 3×3 maze instantiates the amended claim;
its exit `(2, 1)` was recorded during the search and ends marked `2`. -/
theorem c7_witness :
    solveAux mgen3 = some (aux3.1, aux3.2.1, aux3.2.2) ∧
    mgen3.end_pos ∈ visKeys aux3.2.2 ∧ mgen3.end_pos ≠ mgen3.start_pos ∧
    aux3.2.1.grid mgen3.end_pos = 2 :=
  ⟨rfl, by decide, by decide,
    (c7_amended mgen3 aux3.1 aux3.2.1 aux3.2.2 rfl).2.2.2.2 (by decide) (by decide)⟩

/-- C4 (counterexample): on the same generated 3×3 grid, the first call to
`solve_sequential` returns a path of length 3 and the second call (without
regenerating) returns a path of length 1 — the lengths differ, because the
first call's `Visited` marks make cells fail the `== 0` traversability
test. -/
theorem c4_counterexample :
    ((genMaze 3 3 sigma0).bind solvePath).map List.length = some 3 ∧
    (((genMaze 3 3 sigma0).bind solveMaze).bind solvePath).map List.length = some 1 ∧
    (3 : Nat) ≠ 1 :=
  ⟨rfl, rfl, by norm_num⟩

/-- C4 (amended): re-solving the same grid does not in general preserve
the path length: the search only traverses cells whose current value is
the passage value `0`, so cells marked `Visited` (2) or `OnPath` (3) by a
previous call are not traversable — every cell of a returned path other
than the entrance and exit had value `0` when the call started.  On the
generated 3×3 maze the first call returns 3 cells and the second returns
1. -/
theorem c4_amended :
    (∀ (m : Maze) (p : List Pos) (m2 : Maze),
      Maze.solve_sequential m = some (p, m2) →
      ∀ q ∈ p, q ≠ m.start_pos → q ≠ m.end_pos → m.grid q = 0) ∧
    ((genMaze 3 3 sigma0).bind solvePath).map List.length = some 3 ∧
    (((genMaze 3 3 sigma0).bind solveMaze).bind solvePath).map List.length = some 1 := by
  refine ⟨?_, rfl, rfl⟩
  intro m p m2 hsolve q hq h1 h2
  obtain ⟨visf, pth, hp, hbuilt, hgq, hw, hh, hs, he, hne, hhead, hreached,
    hunreached, hpth0, hpthk, hsound, hmin⟩ := solve_run hsolve
  subst hp
  exact (hpth0 q (List.mem_reverse.mp hq) h1 h2).2

/-- C4 (witness): the interior cell `(1, 1)` of the first returned path on
the generated 3×3 maze was a passage before that call. -/
theorem c4_witness :
    Maze.solve_sequential mgen3 = some (seq3.1, seq3.2) ∧
    ((1 : Int), (1 : Int)) ∈ seq3.1 ∧ mgen3.grid (1, 1) = 0 :=
  ⟨rfl, by decide,
    c4_amended.1 mgen3 seq3.1 seq3.2 rfl (1, 1) (by decide) (by decide) (by decide)⟩

/-- C2: on every grid whose exit is reachable from the entrance through
passage cells, `solve_sequential` returns a shortest path: its edge count
(length minus one) is achieved by a walk through passage cells and is a
lower bound of every such walk's step count. -/
theorem c2_shortest : ∀ m : Maze, Reaches m m.grid m.start_pos m.end_pos →
    ∃ (p : List Pos) (m2 : Maze), Maze.solve_sequential m = some (p, m2) ∧
      1 ≤ p.length ∧
      ReachFromN m m.grid m.start_pos (p.length - 1) m.end_pos ∧
      ∀ n, ReachFromN m m.grid m.start_pos n m.end_pos → p.length - 1 ≤ n := by
  intro m hr
  obtain ⟨n0, hR0⟩ := hr
  obtain ⟨visf, pth, g2, haux, hbuilt, hgrid, hne, hhead, hreached, hunreached,
    hpth0, hpthk, hsound, hmin⟩ := solveAux_run m
  have hmem := (hmin n0 hR0).1
  obtain ⟨hlast, hchain, hsub, hlen, hprops⟩ := hreached hmem
  have hlpos : 1 ≤ pth.length := by
    cases pth with
    | nil => exact absurd rfl hne
    | cons a t => simp
  refine ⟨pth.reverse, { m with grid := g2 }, solve_sequential_of_aux haux, ?_, ?_, ?_⟩
  · rw [List.length_reverse]
    exact hlpos
  · rw [List.length_reverse, hlen]
    exact hsound _ hmem
  · intro n hR
    rw [List.length_reverse, hlen]
    exact (hmin n hR).2

/-- C2 (witness): the generated 3×3 maze, whose exit is two passage steps
below the entrance, instantiates the claim. -/
theorem c2_witness :
    Reaches mgen3 mgen3.grid mgen3.start_pos mgen3.end_pos ∧
    ∃ (p : List Pos) (m2 : Maze), Maze.solve_sequential mgen3 = some (p, m2) ∧
      1 ≤ p.length ∧
      ReachFromN mgen3 mgen3.grid mgen3.start_pos (p.length - 1) mgen3.end_pos ∧
      ∀ n, ReachFromN mgen3 mgen3.grid mgen3.start_pos n mgen3.end_pos →
        p.length - 1 ≤ n := by
  have h1 : ReachFromN mgen3 mgen3.grid mgen3.start_pos 1 ((1 : Int), (1 : Int)) :=
    ReachFromN.step ReachFromN.refl (by decide) (by decide) (by decide)
  have h2 : ReachFromN mgen3 mgen3.grid mgen3.start_pos 2 mgen3.end_pos :=
    ReachFromN.step h1 (by decide) (by decide) (by decide)
  exact ⟨⟨2, h2⟩, c2_shortest mgen3 ⟨2, h2⟩⟩

/-- C1 (counterexample): the 4×4 maze has valid dimensions (both ≥ 3) and
is produced by `generate_maze` under a legitimate shuffle, yet the path
returned by `solve_sequential` is `[(3, 2)]`, whose first element is the
exit, not the entrance `(0, 1)` — with even dimensions the carver leaves
the exit unreachable. -/
theorem c1_counterexample :
    (genMaze 4 4 sigma0).bind solvePath = some [(3, 2)] ∧
    (genMaze 4 4 sigma0).map (fun mg => mg.start_pos) = some (0, 1) ∧
    (((3 : Int), (2 : Int)) : Pos) ≠ ((0 : Int), (1 : Int)) :=
  ⟨rfl, rfl, by decide⟩

/-- C1 (amended): for every maze produced by `generate_maze` on valid
dimensions in which the exit is reachable from the entrance through
passage cells, `solve_sequential` returns a non-empty path whose first
element is the entrance and last element is the exit, in which every
consecutive pair of positions is 4-adjacent and no position is a wall
cell (neither before nor after the call). -/
theorem c1_amended : ∀ (w h : Int), 3 ≤ w → 3 ≤ h →
    ∀ sh : Nat → List (Int × Int), (∀ k, (sh k).Perm carveDirs) →
    ∀ mg : Maze, genMaze w h sh = some mg →
    Reaches mg mg.grid mg.start_pos mg.end_pos →
    ∃ (p : List Pos) (m2 : Maze), Maze.solve_sequential mg = some (p, m2) ∧
      p ≠ [] ∧ p.head? = some mg.start_pos ∧ p.getLast? = some mg.end_pos ∧
      List.Chain' adjStep p ∧
      (∀ q ∈ p, mg.grid q ≠ -1) ∧ (∀ q ∈ p, m2.grid q ≠ -1) := by
  intro w h h3w h3h sh hperm mg hgen hr
  obtain ⟨mg', st, hcr, hstk, hnodup, hpush, hgen', hw, hh, hs, he, hgs, hge, hframe⟩ :=
    generate_spec (Maze.init w h) sh h3w h3h
  simp only [genMaze] at hgen
  have hmg : mg = mg' := Option.some.inj (hgen.symm.trans hgen')
  subst hmg
  obtain ⟨n0, hR0⟩ := hr
  obtain ⟨visf, pth, g2, haux, hbuilt, hgrid, hne, hhead, hreached, hunreached,
    hpth0, hpthk, hsound, hmin⟩ := solveAux_run mg
  have hmem := (hmin n0 hR0).1
  obtain ⟨hlast, hchain, hsub, hlen, hprops⟩ := hreached hmem
  have hstart_val : mg.grid mg.start_pos = 0 := by
    rw [hs]
    exact hgs
  refine ⟨pth.reverse, { mg with grid := g2 }, solve_sequential_of_aux haux,
    ?_, ?_, ?_, ?_, ?_, ?_⟩
  · simp [hne]
  · rw [List.head?_reverse]
    exact hlast
  · rw [List.getLast?_reverse]
    exact hhead
  · rw [List.chain'_reverse]
    exact hchain
  · intro q hq
    rw [List.mem_reverse] at hq
    by_cases hqs : q = mg.start_pos
    · rw [hqs, hstart_val]
      norm_num
    · rw [(hprops q hq hqs).2]
      norm_num
  · intro q hq
    show g2 q ≠ -1
    rw [List.mem_reverse] at hq
    rw [hgrid q]
    split_ifs with h1 h2
    · norm_num
    · norm_num
    · by_cases hqs : q = mg.start_pos
      · rw [hqs, hstart_val]
        norm_num
      · exact absurd ⟨hsub q hq, hqs⟩ h2

/-- C1 (witness): the generated 3×3 maze instantiates the amended claim. -/
theorem c1_witness :
    (3 : Int) ≤ 3 ∧ (∀ k, (sigma0 k).Perm carveDirs) ∧
    genMaze 3 3 sigma0 = some mgen3 ∧
    Reaches mgen3 mgen3.grid mgen3.start_pos mgen3.end_pos ∧
    ∃ (p : List Pos) (m2 : Maze), Maze.solve_sequential mgen3 = some (p, m2) ∧
      p ≠ [] ∧ p.head? = some mgen3.start_pos ∧ p.getLast? = some mgen3.end_pos ∧
      List.Chain' adjStep p ∧
      (∀ q ∈ p, mgen3.grid q ≠ -1) ∧ (∀ q ∈ p, m2.grid q ≠ -1) := by
  have h1 : ReachFromN mgen3 mgen3.grid mgen3.start_pos 1 ((1 : Int), (1 : Int)) :=
    ReachFromN.step ReachFromN.refl (by decide) (by decide) (by decide)
  have h2 : ReachFromN mgen3 mgen3.grid mgen3.start_pos 2 mgen3.end_pos :=
    ReachFromN.step h1 (by decide) (by decide) (by decide)
  exact ⟨le_refl 3, fun k => List.Perm.refl _, rfl, ⟨2, h2⟩,
    c1_amended 3 3 (by norm_num) (by norm_num) sigma0 (fun k => List.Perm.refl _)
      mgen3 rfl ⟨2, h2⟩⟩

/-- C6 (counterexample): on the generated-and-solved 3×3 maze, the border
cell `(2, 1)` is the exit and ends with the `Visited` value `2` — it is
neither `Wall` nor `Passage`, so the border property (every border cell
`Wall` except entrance and exit, which are `Passage`) is not preserved by
`solve_sequential` as the claim states. -/
theorem c6_counterexample :
    (genMaze 3 3 sigma0).map (fun mg => mg.end_pos) = some (2, 1) ∧
    borderP mgen3 (2, 1) ∧
    Maze.solve_sequential mgen3 = some (seq3.1, seq3.2) ∧
    seq3.2.grid (2, 1) = 2 ∧ ((2 : Int) ≠ 0 ∧ (2 : Int) ≠ -1) :=
  ⟨rfl, by decide, rfl, rfl, by norm_num⟩

/-- C6 (amended): after `generate_maze` on valid dimensions, every border
cell is `Wall` except the entrance and the exit, which are `Passage`; and
after `solve_sequential` the border walls are still `Wall` and the
entrance is still `Passage`, but the exit may carry the `Visited` mark
`2` instead of `Passage`. -/
theorem c6_amended : ∀ (w h : Int), 3 ≤ w → 3 ≤ h →
    ∀ sh : Nat → List (Int × Int), (∀ k, (sh k).Perm carveDirs) →
    ∀ mg : Maze, genMaze w h sh = some mg →
    (∀ p, borderP mg p → p ≠ mg.start_pos → p ≠ mg.end_pos → mg.grid p = -1) ∧
    mg.grid mg.start_pos = 0 ∧ mg.grid mg.end_pos = 0 ∧
    ∀ (pth : List Pos) (m2 : Maze), Maze.solve_sequential mg = some (pth, m2) →
      (∀ p, borderP mg p → p ≠ mg.start_pos → p ≠ mg.end_pos → m2.grid p = -1) ∧
      m2.grid mg.start_pos = 0 ∧
      (m2.grid mg.end_pos = 0 ∨ m2.grid mg.end_pos = 2) := by
  intro w h h3w h3h sh hperm mg hgen
  obtain ⟨mg', st, hcr, hstk, hnodup, hpush, hgen', hw, hh, hs, he, hgs, hge, hframe⟩ :=
    generate_spec (Maze.init w h) sh h3w h3h
  simp only [genMaze] at hgen
  have hmg : mg = mg' := Option.some.inj (hgen.symm.trans hgen')
  subst hmg
  have hint_iff : ∀ p, interiorP mg p ↔ interiorP (Maze.init w h) p := by
    intro p
    unfold interiorP
    rw [hw, hh]
  have hwall : ∀ p, borderP mg p → p ≠ mg.start_pos → p ≠ mg.end_pos →
      mg.grid p = -1 := by
    intro p hb h1 h2
    refine hframe p ?_ ?_ ?_
    · rw [← hint_iff p]
      exact borderP_not_interior hb
    · rw [← hs]
      exact h1
    · rw [← he]
      exact h2
  have hsv : mg.grid mg.start_pos = 0 := by rw [hs]; exact hgs
  have hev : mg.grid mg.end_pos = 0 := by rw [he]; exact hge
  refine ⟨hwall, hsv, hev, ?_⟩
  intro pth m2 hsolve
  obtain ⟨visf, pth', hp, hbuilt, hgq, _, _, _, _, hne, hhead, hreached,
    hunreached, hpth0, hpthk, hsound, hmin⟩ := solve_run hsolve
  refine ⟨?_, ?_, ?_⟩
  · intro p hb h1 h2
    rw [hgq p]
    rw [if_neg, if_neg]
    · exact hwall p hb h1 h2
    · rintro ⟨hk, hps⟩
      rcases hbuilt.key_props hk with hcase | ⟨_, h0, _⟩
      · exact hps hcase
      · rw [hwall p hb h1 h2] at h0
        norm_num at h0
    · rintro ⟨hmem, hps, hpe⟩
      obtain ⟨_, h0⟩ := hpth0 p hmem hps hpe
      rw [hwall p hb h1 h2] at h0
      norm_num at h0
  · rw [hgq _]
    rw [if_neg (by rintro ⟨_, hc, _⟩; exact hc rfl),
      if_neg (by rintro ⟨_, hc⟩; exact hc rfl)]
    exact hsv
  · rw [hgq _]
    rw [if_neg (by rintro ⟨_, _, hc⟩; exact hc rfl)]
    by_cases hcond : mg.end_pos ∈ visKeys visf ∧ mg.end_pos ≠ mg.start_pos
    · rw [if_pos hcond]
      right
      rfl
    · rw [if_neg hcond]
      left
      exact hev

/-- C6 (witness): the generated 3×3 maze instantiates the amended claim. -/
theorem c6_witness :
    (3 : Int) ≤ 3 ∧ (∀ k, (sigma0 k).Perm carveDirs) ∧
    genMaze 3 3 sigma0 = some mgen3 ∧
    ((∀ p, borderP mgen3 p → p ≠ mgen3.start_pos → p ≠ mgen3.end_pos →
        mgen3.grid p = -1) ∧
      mgen3.grid mgen3.start_pos = 0 ∧ mgen3.grid mgen3.end_pos = 0 ∧
      ∀ (pth : List Pos) (m2 : Maze),
        Maze.solve_sequential mgen3 = some (pth, m2) →
        (∀ p, borderP mgen3 p → p ≠ mgen3.start_pos → p ≠ mgen3.end_pos →
          m2.grid p = -1) ∧
        m2.grid mgen3.start_pos = 0 ∧
        (m2.grid mgen3.end_pos = 0 ∨ m2.grid mgen3.end_pos = 2)) :=
  ⟨le_refl 3, fun k => List.Perm.refl _, rfl,
    c6_amended 3 3 (by norm_num) (by norm_num) sigma0
      (fun k => List.Perm.refl _) mgen3 rfl⟩

/-- C9: for every maze with valid dimensions and every shuffle behaviour,
the carving loop terminates with an empty stack within its fuel bound, and
no interior cell is ever pushed twice — each pushed cell is carved to
passage when pushed, so it never again qualifies as a wall neighbour. -/
theorem c9_termination : ∀ (w h : Int), 3 ≤ w → 3 ≤ h →
    ∀ sh : Nat → List (Int × Int), (∀ k, (sh k).Perm carveDirs) →
    ∃ st : CState, carveRun (Maze.init w h) sh = some st ∧ st.stack = [] ∧
      st.pushed.Nodup ∧
      ∀ c ∈ st.pushed, interiorP (Maze.init w h) c ∧ st.grid c = 0 := by
  intro w h h3w h3h sh hperm
  obtain ⟨mg, st, hcr, hstk, hnd, hpush, _⟩ :=
    generate_spec (Maze.init w h) sh h3w h3h
  exact ⟨st, hcr, hstk, hnd, hpush⟩

/-- C9 (witness): the 3×3 instance under the shuffle oracle `sigma0`. -/
theorem c9_witness :
    (3 : Int) ≤ 3 ∧ (∀ k, (sigma0 k).Perm carveDirs) ∧
    ∃ st : CState, carveRun (Maze.init 3 3) sigma0 = some st ∧ st.stack = [] ∧
      st.pushed.Nodup ∧
      ∀ c ∈ st.pushed, interiorP (Maze.init 3 3) c ∧ st.grid c = 0 :=
  ⟨le_refl 3, fun k => List.Perm.refl _,
    c9_termination 3 3 (by norm_num) (by norm_num) sigma0
      (fun k => List.Perm.refl _)⟩

end MazeLab
